import Mathlib

set_option linter.unusedSectionVars false
set_option linter.unusedVariables false
set_option linter.deprecated false

/-!
Verification of the skip list implementation in `src/skiplist.c`.

The C code stores opaque `void *` payloads in a two-dimensional linked node
graph: each level is a doubly linked list starting at a payload-free header,
levels are stacked via `_prev_layer` (up) and `_next_layer` (down) links, and
`sl->_first_node` is the header of the topmost level.  We shallowly embed a
skip list as the list of its per-level payload sequences `levels`, ordered top
level first, level 0 last; headers are implicit (each level list is the
header's forward chain).  Payloads are modelled by an arbitrary type with
decidable equality, standing for the C pointer values: pointer equality is
payload equality, while the user-supplied ordering `_gt_func` is an arbitrary
boolean relation that need not distinguish distinct payloads.

A node's position during traversal is identified by `Option α`: `none` is the
header of the current level, `some p` the node holding payload `p`.  For the
destruction routine `_delete_skip_list`, whose correctness is about the heap
(no double free, no leak), a second, explicit heap model of the node graph is
given further below (`HNode`, `heapOf`, `_delete_skip_list`).
-/

namespace SkipListC

variable {α : Type} [DecidableEq α]

/-- Model of `struct skip_list`: the per-level payload sequences (top level
first, level 0 last, headers implicit), the comparison function `_gt_func`,
and the `_size` counter. -/
structure SkipList (α : Type) where
  levels : List (List α)
  gtf : α → α → Bool
  size : Int

/-- The level-0 payload sequence (the last entry of `levels`). -/
def level0 (sl : SkipList α) : List α := sl.levels.getLastD []

/-- The forward scan of `_find_previous` at one level: starting at node `cur`
(`none` = header), walk `_next_node` while the next payload is strictly below
`data` under `gt`; return the node where the walk stops.  This is the loop
`while(temp_node->_next_node && gt_func(data, temp_node->_next_node->_data))`. -/
def scanFw (gt : α → α → Bool) (data : α) : Option α → List α → Option α
  | cur, [] => cur
  | cur, x :: xs => if gt data x then scanFw gt data (some x) xs else cur

/-- Split a level list at the node `cur`: the part up to and including `cur`
and the part strictly after it (the node's `_next_node` chain).  For the
header (`cur = none`) the whole level is the forward chain. -/
def splitAfter (cur : Option α) (l : List α) : List α × List α :=
  match cur with
  | none => ([], l)
  | some p =>
      (l.takeWhile (fun x => decide (x ≠ p)) ++ (l.dropWhile (fun x => decide (x ≠ p))).take 1,
       (l.dropWhile (fun x => decide (x ≠ p))).drop 1)

/-- The forward chain of node `cur` inside level `l`: following the node's
`_next_layer` (down) link lands on the copy of `cur` one level below, and its
`_next_node` chain is the suffix of that level strictly after `cur`. -/
def enter (cur : Option α) (l : List α) : List α := (splitAfter cur l).2

/-- Model of `_find_previous`: scan the current level forward from `cur`,
then descend through `_next_layer` and continue in the remaining levels;
when no level is left below (`!(temp_node->_next_layer)`), return the node
reached.  `ls` lists the current level and all levels below it, top first. -/
def _find_previous (gt : α → α → Bool) (data : α) : Option α → List (List α) → Option α
  | cur, [] => cur
  | cur, l :: ls => _find_previous gt data (scanFw gt data cur (enter cur l)) ls

/-- Model of `skip_list_contains`: run `_find_previous` from the top header,
then test the returned node's forward neighbour for *pointer* equality with
`data` (`(prev_node->_next_node->_data) == data`), returning the C int. -/
def skip_list_contains (sl : SkipList α) (data : α) : Nat :=
  let prev := _find_previous sl.gtf data none sl.levels
  match (enter prev (level0 sl)).head? with
  | none => 0
  | some x => if x = data then 1 else 0

/-- The walk of `_insert_node` that locates the splice point one level up:
from the new node's predecessor, walk `_prev_node` leftwards to the first
node with a `_prev_layer` (up) link and follow it.  `before` is the payload
sequence left of the new node at the level below, `lk` the level above; the
result splits `lk` at the up-copy of the nearest left neighbour present in
`lk` (the header of `lk` when no such neighbour exists). -/
def upSplit (before : List α) (lk : List α) : List α × List α :=
  match before.reverse.find? (fun p => decide (p ∈ lk)) with
  | none => ([], lk)
  | some p => splitAfter (some p) lk

/-- The promotion loop of `_insert_node`: one `_coin_flip()` outcome is
consumed per level; on `true` (heads) the payload is spliced into the level
above at the position found by the leftward walk, growing the structure by a
fresh top level when the walk reaches the topmost header; on `false` (tails)
or when the flip sequence is exhausted, promotion stops.  `ups` lists the
levels above the one just inserted into, bottom first; the result is those
levels after promotion, bottom first. -/
def promote (data : α) : List Bool → List α → List (List α) → List (List α)
  | [], _, ups => ups
  | false :: _, _, ups => ups
  | true :: fs, _, [] => [data] :: promote data fs [] []
  | true :: fs, before, lk :: rest =>
      (((upSplit before lk).1 ++ data :: (upSplit before lk).2)) ::
        promote data fs (upSplit before lk).1 rest

/-- Model of `skip_list_insert`: find the level-0 predecessor; if its forward
neighbour exists and is *pointer*-equal to `data`, return 0 without change;
otherwise splice `data` after the predecessor at level 0, promote it upward
according to the coin flips `flips`, and increment `_size`.  Returns the C
int result together with the updated structure. -/
def skip_list_insert (sl : SkipList α) (data : α) (flips : List Bool) : Nat × SkipList α :=
  let prev := _find_previous sl.gtf data none sl.levels
  let l0 := level0 sl
  if (enter prev l0).head? = some data then (0, sl)
  else
    (1, { sl with
          levels := (promote data flips (splitAfter prev l0).1 sl.levels.dropLast.reverse).reverse
                      ++ [(splitAfter prev l0).1 ++ data :: (splitAfter prev l0).2],
          size := sl.size + 1 })

/-- Model of `_delete_node`: starting from the level-0 node holding `data`,
follow the `_prev_layer` (up) chain and unlink the node from every level it
appears in.  `ls` lists the levels bottom first; the chain stops at the
first level without a copy of `data`. -/
def deleteColumn (data : α) : List (List α) → List (List α)
  | [] => []
  | l :: ls => if data ∈ l then l.erase data :: deleteColumn data ls else l :: ls

/-- Model of `_reduce_height`: while the topmost header has no forward
neighbour (`!(head_node->_next_node)`) and a level exists below
(`head_node->_next_layer`), free the top header and make the level below the
new top.  `ls` lists the levels top first. -/
def _reduce_height : List (List α) → List (List α)
  | [] => []
  | [l] => [l]
  | l :: ls => if l.isEmpty then _reduce_height ls else l :: ls

/-- Model of `skip_list_remove`: find the level-0 predecessor; if its forward
neighbour is absent or not *pointer*-equal to `data`, return 0 without
change; otherwise delete the node's whole column, reduce the height, and
decrement `_size`. -/
def skip_list_remove (sl : SkipList α) (data : α) : Nat × SkipList α :=
  let prev := _find_previous sl.gtf data none sl.levels
  if (enter prev (level0 sl)).head? = some data then
    (1, { sl with
          levels := _reduce_height (deleteColumn data sl.levels.reverse).reverse,
          size := sl.size - 1 })
  else (0, sl)

/-- Model of `skip_list_create`: a single empty level 0 (one header node),
the supplied comparison function, size 0. -/
def skip_list_create (gt : α → α → Bool) : SkipList α :=
  ⟨[[]], gt, 0⟩

/-- Model of `skip_list_size`. -/
def skip_list_size (sl : SkipList α) : Int := sl.size

/-- The comparison contract of the spec (section 4.1): `gt` is a strict total
order on the payloads actually used — irreflexive, transitive, and total
(connected): two distinct payloads are always ordered. -/
structure IsSTO (gt : α → α → Bool) : Prop where
  irrefl : ∀ a, gt a a = false
  trans : ∀ a b c, gt a b = true → gt b c = true → gt a c = true
  total : ∀ a b, a ≠ b → gt a b = true ∨ gt b a = true

/-- A level's payload sequence is strictly increasing under `gt`: every later
payload is greater than every earlier one. -/
def SortedGt (gt : α → α → Bool) (l : List α) : Prop :=
  l.Pairwise (fun a b => gt b a = true)

/-- Structural well-formedness of the level representation: at least level 0
exists, every level is strictly increasing, and each level is a subsequence
of the level below it (`sl.levels.reverse` lists the levels bottom first). -/
structure WF (sl : SkipList α) : Prop where
  ne : sl.levels ≠ []
  sorted : ∀ l ∈ sl.levels, SortedGt sl.gtf l
  chain : List.Chain' (fun low up => up.Sublist low) sl.levels.reverse

/-- The skip lists reachable from `skip_list_create gt` by any sequence of
`skip_list_insert` and `skip_list_remove` calls with any coin-flip
outcomes. -/
inductive ReachableSL (gt : α → α → Bool) : SkipList α → Prop
  | create : ReachableSL gt (skip_list_create gt)
  | insert : ∀ {sl} (data : α) (flips : List Bool), ReachableSL gt sl →
      ReachableSL gt (skip_list_insert sl data flips).2
  | remove : ∀ {sl} (data : α), ReachableSL gt sl →
      ReachableSL gt (skip_list_remove sl data).2

/-- The node at which the level scan of `_find_previous` stops when started
from the header: the last element of the longest all-below-`data` prefix. -/
def lastLt (gt : α → α → Bool) (data : α) (l : List α) : Option α :=
  (l.takeWhile (fun x => gt data x)).getLast?

/-- The spec's description of the find-predecessor result: the rightmost
node of the level whose payload is strictly ordered before `data`
(`none` = the header when no payload is ordered before `data`). -/
def rightmostBelow (gt : α → α → Bool) (data : α) (l : List α) : Option α :=
  (l.filter (fun x => gt data x)).getLast?

/-- Number of leading heads (`true`) in a coin-flip outcome sequence; an
exhausted sequence behaves like tails. -/
def leadingTrue : List Bool → Nat
  | [] => 0
  | false :: _ => 0
  | true :: fs => leadingTrue fs + 1

/-- Number of levels of the structure in which payload `data` appears (the
height of its column of nodes). -/
def colHeight (sl : SkipList α) (data : α) : Nat :=
  sl.levels.countP (fun l => decide (data ∈ l))

/-! ### Heap model of the node graph

`skip_list_destroy` / `_delete_skip_list` are about memory: every node
reachable from the topmost header must be freed exactly once.  To state
this we model `struct _sl_node` and the heap explicitly.  Node addresses
are `Nat`; the node of level `j` (counted from level 0) at horizontal
index `i` (`i = 0` the header, `i ≥ 1` the `i`-th element) lives at address
`Nat.pair j i`.  `L` lists the levels bottom first. -/

/-- Model of `struct _sl_node`: the four links and the payload (`none` for
headers). -/
structure HNode (α : Type) where
  prevNode : Option Nat
  nextNode : Option Nat
  prevLayer : Option Nat
  nextLayer : Option Nat
  dat : Option α

/-- A heap of skip-list nodes: partial map from addresses to nodes;
`none` means unallocated or freed. -/
def SLHeap (α : Type) := Nat → Option (HNode α)

/-- The header node of level `j` of the node graph of `L` (levels bottom
first): it links down/up to the adjacent headers and forward to the first
element of its level. -/
def headerNode (L : List (List α)) (j : Nat) : HNode α :=
  { prevNode := none
  , nextNode := if L.getD j [] = [] then none else some (Nat.pair j 1)
  , prevLayer := if j + 1 < L.length then some (Nat.pair (j + 1) 0) else none
  , nextLayer := if j = 0 then none else some (Nat.pair (j - 1) 0)
  , dat := none }

/-- The `i`-th element node (1-based) of level `j`, holding payload `p`: it
links down/up to the copy of its payload in the adjacent level (an up link
only where the payload occurs one level up). -/
def elemNode (L : List (List α)) (j i : Nat) (p : α) : HNode α :=
  { prevNode := some (Nat.pair j (i - 1))
  , nextNode := if i < (L.getD j []).length then some (Nat.pair j (i + 1)) else none
  , prevLayer := if p ∈ L.getD (j + 1) [] then
        some (Nat.pair (j + 1) ((L.getD (j + 1) []).indexOf p + 1)) else none
  , nextLayer := if j = 0 then none
        else some (Nat.pair (j - 1) ((L.getD (j - 1) []).indexOf p + 1))
  , dat := some p }

/-- The node stored at coordinates `(j, i)` of the node graph of the level
structure `L` (levels bottom first). -/
def nodeAt (L : List (List α)) (j i : Nat) : Option (HNode α) :=
  if j < L.length then
    if i = 0 then some (headerNode L j)
    else
      match (L.getD j []).get? (i - 1) with
      | none => none
      | some p => some (elemNode L j i p)
  else none

/-- The heap holding exactly the node graph of the level structure `L`. -/
def heapOf (L : List (List α)) : SLHeap α :=
  fun id => nodeAt L (Nat.unpair id).1 (Nat.unpair id).2

/-- Free one node: `free(current_node)`. -/
def hfree (h : SLHeap α) (id : Nat) : SLHeap α :=
  fun k => if k = id then none else h k

/-- A node with its downward link cleared. -/
def severNd (nd : HNode α) : HNode α :=
  { nd with nextLayer := none }

/-- Clear the downward link of one node:
`current_node->_prev_layer->_next_layer = NULL`. -/
def hsever (h : SLHeap α) (id : Nat) : SLHeap α :=
  fun k => if k = id then (h k).map severNd else h k

/-- Model of `_delete_skip_list`: recursively destroy the subgraph below
(`_next_layer`), then the subgraph to the right (`_next_node`, re-read from
the heap after the first call as the C does), then clear the downward link
of the node above (`_prev_layer->_next_layer = NULL`) and free the node.
Returns the final heap and the sequence of freed addresses; `fuel` bounds
the recursion depth (the C recursion terminates on the acyclic graphs the
library builds). -/
def _delete_skip_list (fuel : Nat) (h : SLHeap α) (cur : Option Nat) : SLHeap α × List Nat :=
  match fuel with
  | 0 => (h, [])
  | fuel' + 1 =>
    match cur with
    | none => (h, [])
    | some id =>
      match h id with
      | none => (h, [])
      | some nd =>
        let r1 := _delete_skip_list fuel' h nd.nextLayer
        let r2 := match r1.1 id with
                  | none => r1
                  | some nd1 =>
                      ((_delete_skip_list fuel' r1.1 nd1.nextNode).1,
                       r1.2 ++ (_delete_skip_list fuel' r1.1 nd1.nextNode).2)
        let h2 := match r2.1 id with
                  | none => r2.1
                  | some nd2 => match nd2.prevLayer with
                                | none => r2.1
                                | some up => hsever r2.1 up
        (hfree h2 id, r2.2 ++ [id])

/-- Model of `skip_list_destroy` on a skip list whose level structure is `L`
(levels bottom first): run `_delete_skip_list` from the topmost header
(`sl->_first_node`, at address `Nat.pair (L.length - 1) 0`). -/
def skip_list_destroy (L : List (List α)) (fuel : Nat) : SLHeap α × List Nat :=
  _delete_skip_list fuel (heapOf L) (some (Nat.pair (L.length - 1) 0))

/-- Addresses reachable in heap `h` from address `s` by following node
links. -/
inductive ReachN (h : SLHeap α) (s : Nat) : Nat → Prop
  | refl : ReachN h s s
  | step : ∀ {id id' : Nat} {nd : HNode α}, ReachN h s id → h id = some nd →
      (nd.nextNode = some id' ∨ nd.nextLayer = some id' ∨
       nd.prevNode = some id' ∨ nd.prevLayer = some id') → ReachN h s id'

/-- The addresses of level `j` of `L` in the order `_delete_skip_list` frees
them: elements right to left, then the header. -/
def blockIds (L : List (List α)) (j : Nat) : List Nat :=
  ((List.range (L.getD j []).length).map (fun i => Nat.pair j (i + 1))).reverse
    ++ [Nat.pair j 0]

/-- The addresses of levels `0..k` in deletion order. -/
def blocksUpTo (L : List (List α)) : Nat → List Nat
  | 0 => blockIds L 0
  | k + 1 => blocksUpTo L k ++ blockIds L (k + 1)

/-- The heap after levels `0..k-1` of `L` have been destroyed: their nodes
are freed and every downward link of level `k` has been cleared. -/
def stageH (L : List (List α)) (k : Nat) : SLHeap α :=
  fun id =>
    if (Nat.unpair id).1 < k then none
    else if (Nat.unpair id).1 = k then (heapOf L id).map severNd
    else heapOf L id

/-- Free a set of nodes. -/
def freeAll (h : SLHeap α) (ids : List Nat) : SLHeap α :=
  fun k => if k ∈ ids then none else h k

/-- Clear the downward links of a set of nodes. -/
def severAll (h : SLHeap α) (ids : List Nat) : SLHeap α :=
  fun k => if k ∈ ids then (h k).map severNd else h k

/-- The addresses of the elements of level `j` from position `t` on (0-based)
in deletion order (right to left). -/
def rowSuffix (L : List (List α)) (j t : Nat) : List Nat :=
  ((List.range ((L.getD j []).length - t)).map (fun i => Nat.pair j (t + i + 1))).reverse

/-- The upward-link targets of the elements of level `j` from position `t`
on: the addresses whose downward links are cleared when those elements are
freed. -/
def upTargets (L : List (List α)) (j t : Nat) : List Nat :=
  ((L.getD j []).drop t).filterMap (fun p =>
    if p ∈ L.getD (j + 1) [] then
      some (Nat.pair (j + 1) ((L.getD (j + 1) []).indexOf p + 1))
    else none)

/-- The heap after the elements of level `j` from position `t` on have been
destroyed: they are freed and the downward links of their upward copies are
cleared. -/
def rowStage (L : List (List α)) (j t : Nat) (g : SLHeap α) : SLHeap α :=
  severAll (freeAll g (rowSuffix L j t)) (upTargets L j t)

/-- A fuel bound sufficient to destroy levels `0..k` of `L`. -/
def fuelFor (L : List (List α)) : Nat → Nat
  | 0 => (L.getD 0 []).length + 2
  | k + 1 => fuelFor L k + (L.getD (k + 1) []).length + 2

/-! ### Concrete instances used by witnesses and counterexamples -/

/-- The integer comparison of the C demo driver (`fifo_gt`): a strict total
order on the payload values themselves. -/
def natGt : Nat → Nat → Bool := fun a b => decide (b < a)

/-- A comparison that identifies `2k` and `2k+1`: a valid strict order on
the quotient values under which distinct payloads can be order-equal, as
with C pointers to equal values. -/
def halfGt : Nat → Nat → Bool := fun a b => decide (b / 2 < a / 2)

/-- Empty skip list over `natGt`. -/
def wCreate : SkipList Nat := skip_list_create natGt

/-- Skip list holding 4 at levels 0 and 1. -/
def wA : SkipList Nat := (skip_list_insert wCreate 4 [true]).2

/-- Skip list holding 2 (level 0) and 4 (levels 0 and 1). -/
def wB : SkipList Nat := (skip_list_insert wA 2 []).2

/-- Skip list over `halfGt` holding the single payload 4, order-equal to
the distinct payload 5. -/
def hT : SkipList Nat := (skip_list_insert (skip_list_create halfGt) 4 []).2

/-- Level structure (bottom first) used for the destroy witness. -/
def dL : List (List Nat) := [[2, 4], [4]]

/-- Result of removing 4 from `wB` (used by the C7 witness). -/
def wRm : SkipList Nat := (skip_list_remove wB 4).2



/-! ## Theorems

First the level scan of `_find_previous` is characterized, then the whole
descent, then preservation of well-formedness by insert and remove, then
the claims. -/

theorem getLast?_cons_or (x : α) (t : List α) : (x :: t).getLast? = t.getLast?.or (some x) := by
  induction t generalizing x with
  | nil => rfl
  | cons y ys ih =>
    rw [List.getLast?_cons_cons, ih y]
    cases h : ys.getLast? <;> simp

theorem scanFw_eq (gt : α → α → Bool) (data : α) (cur : Option α) (l : List α) :
    scanFw gt data cur l = (l.takeWhile fun x => gt data x).getLast?.or cur := by
  induction l generalizing cur with
  | nil => simp [scanFw]
  | cons x xs ih =>
    by_cases h : gt data x = true
    · rw [scanFw, if_pos h, ih, List.takeWhile_cons_of_pos h, getLast?_cons_or]
      cases hx : (xs.takeWhile fun x => gt data x).getLast? <;> simp
    · rw [scanFw, if_neg h, List.takeWhile_cons_of_neg h]
      simp

theorem lastLt_eq_some {gt : α → α → Bool} {data p : α} {U : List α}
    (h : lastLt gt data U = some p) : gt data p = true ∧ p ∈ U := by
  have hmem : p ∈ U.takeWhile fun x => gt data x := List.mem_of_getLast?_eq_some h
  exact ⟨List.mem_takeWhile_imp hmem, (List.takeWhile_sublist _).subset hmem⟩

theorem splitAfter_eq_append {p : α} {u v : List α} (hp : p ∉ u) :
    splitAfter (some p) (u ++ p :: v) = (u ++ [p], v) := by
  have hu : ∀ x ∈ u, (fun x => decide (x ≠ p)) x = true := by
    intro x hx
    simp only [decide_eq_true_eq]
    exact fun hxp => hp (hxp ▸ hx)
  simp only [splitAfter]
  rw [List.takeWhile_append_of_pos hu, List.dropWhile_append_of_pos hu,
    List.takeWhile_cons_of_neg (by simp), List.dropWhile_cons_of_neg (by simp)]
  simp

theorem splitAfter_eq_of_mem {p : α} {l : List α} (hmem : p ∈ l) :
    ∃ u v, splitAfter (some p) l = (u ++ [p], v) ∧ l = u ++ p :: v ∧ p ∉ u := by
  have hne : l.dropWhile (fun x => decide (x ≠ p)) ≠ [] := by
    intro h
    rw [List.dropWhile_eq_nil_iff] at h
    have := h p hmem
    simp at this
  obtain ⟨y, t, hyt⟩ := List.exists_cons_of_ne_nil hne
  have h2 := List.head?_dropWhile_not (fun x => decide (x ≠ p)) l
  rw [hyt] at h2
  simp only [List.head?_cons] at h2
  have hy : y = p := by simpa using h2
  have hd : l = l.takeWhile (fun x => decide (x ≠ p)) ++ p :: t := by
    conv_lhs => rw [← List.takeWhile_append_dropWhile (p := fun x => decide (x ≠ p)) (l := l)]
    rw [hyt, hy]
  have hpu : p ∉ l.takeWhile (fun x => decide (x ≠ p)) := by
    intro hmem2
    have := List.mem_takeWhile_imp hmem2
    simp at this
  refine ⟨l.takeWhile (fun x => decide (x ≠ p)), t, ?_, hd, hpu⟩
  conv_lhs => rw [hd]
  exact splitAfter_eq_append hpu

theorem scan_enter {gt : α → α → Bool}
    (htr : ∀ a b c, gt a b = true → gt b c = true → gt a c = true)
    {l U : List α} (hl : SortedGt gt l) (hU : U.Sublist l) (data : α) :
    scanFw gt data (lastLt gt data U) (enter (lastLt gt data U) l) = lastLt gt data l := by
  cases hc : lastLt gt data U with
  | none =>
    rw [enter, splitAfter, scanFw_eq, lastLt, Option.or_none]
  | some p =>
    obtain ⟨hdp, hpU⟩ := lastLt_eq_some hc
    have hpl : p ∈ l := hU.subset hpU
    obtain ⟨u, v, hsp, hdecomp, hpu⟩ := splitAfter_eq_of_mem hpl
    have hupass : ∀ x ∈ u, (fun x => gt data x) x = true := by
      intro x hx
      have hpx : gt p x = true := by
        have hp : List.Pairwise (fun a b => gt b a = true) (u ++ p :: v) := hdecomp ▸ hl
        rw [List.pairwise_append] at hp
        exact hp.2.2 x hx p (List.mem_cons_self p v)
      exact htr data p x hdp hpx
    have htw : l.takeWhile (fun x => gt data x) = u ++ p :: v.takeWhile (fun x => gt data x) := by
      rw [hdecomp, List.takeWhile_append_of_pos hupass, List.takeWhile_cons_of_pos hdp]
    rw [enter, hsp, scanFw_eq, lastLt, htw, List.getLast?_append_cons, getLast?_cons_or]

theorem fp_aux {gt : α → α → Bool}
    (htr : ∀ a b c, gt a b = true → gt b c = true → gt a c = true) (data : α) :
    ∀ (ls : List (List α)) (U : List α), (∀ l ∈ ls, SortedGt gt l) →
      List.Chain' (fun a b => a.Sublist b) (U :: ls) →
      _find_previous gt data (lastLt gt data U) ls = lastLt gt data (ls.getLastD U)
  | [], U, _, _ => rfl
  | l :: ls, U, hs, hc => by
    rw [_find_previous,
        scan_enter htr (hs l (List.mem_cons_self l ls)) (List.chain'_cons.mp hc).1 data,
        List.getLastD_cons]
    exact fp_aux htr data ls l (fun x hx => hs x (List.mem_cons_of_mem l hx))
      (List.chain'_cons.mp hc).2

theorem WF.chainTD {sl : SkipList α} (h : WF sl) :
    List.Chain' (fun a b => a.Sublist b) sl.levels :=
  List.chain'_reverse.mp h.chain

theorem find_previous_eq {sl : SkipList α} (h : WF sl)
    (htr : ∀ a b c, sl.gtf a b = true → sl.gtf b c = true → sl.gtf a c = true) (data : α) :
    _find_previous sl.gtf data none sl.levels = lastLt sl.gtf data (level0 sl) := by
  have h0 : lastLt sl.gtf data ([] : List α) = none := rfl
  rw [level0, ← h0]
  apply fp_aux htr data sl.levels [] h.sorted
  cases hl : sl.levels with
  | nil => simp
  | cons l ls =>
    rw [List.chain'_cons]
    exact ⟨List.nil_sublist l, hl ▸ h.chainTD⟩

theorem filter_eq_takeWhile {gt : α → α → Bool}
    (htr : ∀ a b c, gt a b = true → gt b c = true → gt a c = true) (data : α) :
    ∀ {l : List α}, SortedGt gt l →
      l.filter (fun x => gt data x) = l.takeWhile (fun x => gt data x)
  | [], _ => rfl
  | x :: xs, hl => by
    have hl2 : List.Pairwise (fun a b => gt b a = true) (x :: xs) := hl
    rcases List.pairwise_cons.mp hl2 with ⟨hx, hxs⟩
    by_cases h : gt data x = true
    · rw [List.filter_cons_of_pos h, List.takeWhile_cons_of_pos h,
        filter_eq_takeWhile htr data hxs]
    · rw [List.filter_cons_of_neg h, List.takeWhile_cons_of_neg h]
      rw [List.filter_eq_nil_iff]
      intro y hy hdy
      exact h (htr data y x hdy (hx y hy))

theorem SortedGt.nodup {gt : α → α → Bool} (hi : ∀ a, gt a a = false)
    {l : List α} (h : SortedGt gt l) : l.Nodup := by
  have h2 : List.Pairwise (fun a b => gt b a = true) l := h
  refine h2.imp ?_
  intro a b hab hEq
  rw [hEq] at hab
  rw [hi b] at hab
  exact Bool.false_ne_true hab

theorem splitAfter_lastLt {gt : α → α → Bool} (hi : ∀ a, gt a a = false)
    {l : List α} (hl : SortedGt gt l) (data : α) :
    splitAfter (lastLt gt data l) l =
      (l.takeWhile (fun x => gt data x), l.dropWhile (fun x => gt data x)) := by
  cases hc : lastLt gt data l with
  | none =>
    rw [lastLt, List.getLast?_eq_none_iff] at hc
    rw [splitAfter, hc]
    conv_lhs => rw [← List.takeWhile_append_dropWhile (p := fun x => gt data x) (l := l), hc,
      List.nil_append]
  | some p =>
    rw [lastLt, List.getLast?_eq_some_iff] at hc
    obtain ⟨T, hT⟩ := hc
    have hTD : l = (T ++ [p]) ++ l.dropWhile (fun x => gt data x) := by
      conv_lhs => rw [← List.takeWhile_append_dropWhile (p := fun x => gt data x) (l := l), hT]
    have hnd : (T ++ [p]).Nodup := by
      rw [← hT]
      exact (List.takeWhile_sublist _).nodup (SortedGt.nodup hi hl)
    have hpT : p ∉ T := by
      rw [List.nodup_append] at hnd
      intro hmem
      exact hnd.2.2 hmem (List.mem_singleton_self p)
    conv_lhs => rw [hTD]
    rw [List.append_assoc, List.singleton_append]
    rw [splitAfter_eq_append hpT, ← hT]

theorem dropWhile_head_false {gt : α → α → Bool} {data y : α} {t l : List α}
    (hd : l.dropWhile (fun x => gt data x) = y :: t) : gt data y = false := by
  have h2 := List.head?_dropWhile_not (fun x => gt data x) l
  rw [hd] at h2
  simpa using h2

theorem dropWhile_all_gt {gt : α → α → Bool} {data : α}
    (hi : ∀ a, gt a a = false)
    (htr : ∀ a b c, gt a b = true → gt b c = true → gt a c = true)
    (hto : ∀ a b, a ≠ b → gt a b = true ∨ gt b a = true)
    {l : List α} (hl : SortedGt gt l)
    (hhead : (l.dropWhile (fun x => gt data x)).head? ≠ some data) :
    ∀ y ∈ l.dropWhile (fun x => gt data x), gt y data = true := by
  cases hd : l.dropWhile (fun x => gt data x) with
  | nil => simp
  | cons y t =>
    have hy : gt data y = false := dropWhile_head_false hd
    have hyd : y ≠ data := by
      intro hEq
      rw [hd, List.head?_cons, hEq] at hhead
      exact hhead rfl
    have hyg : gt y data = true := by
      rcases hto y data hyd with h | h
      · exact h
      · rw [hy] at h
        exact absurd h Bool.false_ne_true
    have hsorted : SortedGt gt (y :: t) := by
      have : (y :: t).Sublist l := hd ▸ List.dropWhile_sublist _
      exact List.Pairwise.sublist this hl
    intro z hz
    rcases List.mem_cons.mp hz with rfl | hz
    · exact hyg
    · have hzy : gt z y = true := (List.pairwise_cons.mp hsorted).1 z hz
      exact htr z y data hzy hyg

theorem chain'_sublist_all {x : List α} {ls : List (List α)}
    (h : List.Chain' (fun low up => List.Sublist up low) (x :: ls)) :
    ∀ l ∈ ls, l.Sublist x := by
  induction ls generalizing x with
  | nil => simp
  | cons y ys ih =>
    rcases List.chain'_cons.mp h with ⟨hyx, htail⟩
    intro l hl
    rcases List.mem_cons.mp hl with rfl | hl
    · exact hyx
    · exact (ih htail l hl).trans hyx

theorem gt_disjoint {gt : α → α → Bool} {data : α}
    (hi : ∀ a, gt a a = false)
    (htr : ∀ a b c, gt a b = true → gt b c = true → gt a c = true)
    {B A : List α} (hB : ∀ x ∈ B, gt data x = true) (hA : ∀ y ∈ A, gt y data = true) :
    ∀ q, q ∈ B → q ∈ A → False := by
  intro q hqB hqA
  have := htr q data q (hA q hqA) ?_
  · rw [hi q] at this
    exact Bool.false_ne_true this
  · exact hB q hqB

theorem find?_append_none {p : α → Bool} {l1 l2 : List α} (h : ∀ x ∈ l1, ¬p x = true) :
    (l1 ++ l2).find? p = l2.find? p := by
  rw [List.find?_append]
  rw [show l1.find? p = none from List.find?_eq_none.mpr h]
  rfl

theorem upSplit_spec {gt : α → α → Bool} {data : α}
    (hi : ∀ a, gt a a = false)
    (htr : ∀ a b c, gt a b = true → gt b c = true → gt a c = true)
    {B A lk : List α} (hBnd : B.Nodup)
    (hB : ∀ x ∈ B, gt data x = true) (hA : ∀ y ∈ A, gt y data = true)
    (hsub : lk.Sublist (B ++ A)) :
    ∃ u v, upSplit B lk = (u, v) ∧ lk = u ++ v ∧ u.Sublist B ∧ v.Sublist A := by
  rcases List.sublist_append_iff.mp hsub with ⟨u, v, hlk, huB, hvA⟩
  refine ⟨u, v, ?_, hlk, huB, hvA⟩
  have hdisj := gt_disjoint hi htr hB hA
  rcases List.eq_nil_or_concat u with rfl | ⟨u', p, rfl⟩
  · rw [upSplit]
    have hfn : B.reverse.find? (fun p => decide (p ∈ lk)) = none := by
      rw [List.find?_eq_none]
      intro q hq
      simp only [decide_eq_true_eq]
      intro hqlk
      rw [hlk, List.nil_append] at hqlk
      exact hdisj q (List.mem_reverse.mp hq) (hvA.subset hqlk)
    rw [hfn]
    rw [hlk, List.nil_append]
  · rw [List.concat_eq_append] at hlk huB ⊢
    rcases List.append_sublist_iff.mp huB with ⟨B1', B2', hBeq, hu'B1, hpB2⟩
    have hpB2' : p ∈ B2' := List.singleton_sublist.mp hpB2
    rcases List.append_of_mem hpB2' with ⟨C, D, hB2eq⟩
    have hBeq2 : B = (B1' ++ C) ++ p :: D := by
      rw [hBeq, hB2eq, List.append_assoc]
    have hBnd2 : ((B1' ++ C) ++ p :: D).Nodup := hBeq2 ▸ hBnd
    rw [List.nodup_append] at hBnd2
    have hpnotB1C : p ∉ B1' ++ C := fun hmem =>
      hBnd2.2.2 hmem (List.mem_cons_self p D)
    have hDnotlk : ∀ q ∈ D, q ∉ lk := by
      intro q hqD hqlk
      rw [hlk] at hqlk
      rcases List.mem_append.mp hqlk with hqu | hqv
      · rcases List.mem_append.mp hqu with hqu' | hqp
        · have hqB1 : q ∈ B1' ++ C := List.mem_append_left C (hu'B1.subset hqu')
          exact hBnd2.2.2 hqB1 (List.mem_cons_of_mem p hqD)
        · have hqp2 : q = p := List.mem_singleton.mp hqp
          rw [hqp2] at hqD
          exact (List.pairwise_cons.mp hBnd2.2.1).1 p hqD rfl
      · exact hdisj q (hBeq2 ▸ List.mem_append_right (B1' ++ C) (List.mem_cons_of_mem p hqD))
          (hvA.subset hqv)
    have hplk : p ∈ lk := by
      rw [hlk]
      exact List.mem_append_left v (List.mem_append_right u' (List.mem_singleton_self p))
    have hDr : ∀ x ∈ D.reverse, ¬(fun q => decide (q ∈ lk)) x = true := by
      intro x hx
      simp only [decide_eq_true_eq]
      exact hDnotlk x (List.mem_reverse.mp hx)
    have hfind : B.reverse.find? (fun q => decide (q ∈ lk)) = some p := by
      rw [hBeq2, List.reverse_append, List.reverse_cons, List.append_assoc,
        find?_append_none hDr, List.singleton_append,
        List.find?_cons_of_pos _ (by simpa using hplk)]
    rw [upSplit, hfind]
    have hpu' : p ∉ u' := fun hmem =>
      hpnotB1C (List.mem_append_left C (hu'B1.subset hmem))
    rw [hlk, List.append_assoc, List.singleton_append]
    exact splitAfter_eq_append hpu'

theorem chain_relax {x x' : List α} {ls : List (List α)}
    (h : List.Chain' (fun low up => List.Sublist up low) (x :: ls)) (hx : x.Sublist x') :
    List.Chain' (fun low up => List.Sublist up low) (x' :: ls) := by
  cases ls with
  | nil => simp
  | cons y ys =>
    rcases List.chain'_cons.mp h with ⟨h1, h2⟩
    exact List.chain'_cons.mpr ⟨h1.trans hx, h2⟩

theorem promote_spec {gt : α → α → Bool} {data : α}
    (hi : ∀ a, gt a a = false)
    (htr : ∀ a b c, gt a b = true → gt b c = true → gt a c = true)
    (flips : List Bool) :
    ∀ (B A : List α) (ups : List (List α)),
      B.Nodup →
      (∀ x ∈ B, gt data x = true) →
      (∀ y ∈ A, gt y data = true) →
      (∀ l ∈ ups, SortedGt gt l) →
      List.Chain' (fun low up => List.Sublist up low) ((B ++ A) :: ups) →
      (∀ l ∈ ups, data ∉ l) →
      (∀ l ∈ promote data flips B ups, SortedGt gt l) ∧
      List.Chain' (fun low up => List.Sublist up low)
        ((B ++ data :: A) :: promote data flips B ups) ∧
      (promote data flips B ups).length = max ups.length (leadingTrue flips) ∧
      (promote data flips B ups).countP (fun l => decide (data ∈ l)) = leadingTrue flips := by
  induction flips with
  | nil =>
    intro B A ups hnd hB hA hsorted hchain hnot
    refine ⟨?_, ?_, ?_, ?_⟩
    · simpa [promote] using hsorted
    · rw [promote]
      exact chain_relax hchain ((List.sublist_cons_self data A).append_left B)
    · simp [promote, leadingTrue]
    · rw [promote, leadingTrue]
      rw [List.countP_eq_zero]
      intro l hl
      simpa using hnot l hl
  | cons f fs ih =>
    cases f with
    | false =>
      intro B A ups hnd hB hA hsorted hchain hnot
      refine ⟨?_, ?_, ?_, ?_⟩
      · simpa [promote] using hsorted
      · rw [promote]
        exact chain_relax hchain ((List.sublist_cons_self data A).append_left B)
      · simp [promote, leadingTrue]
      · rw [promote, leadingTrue]
        rw [List.countP_eq_zero]
        intro l hl
        simpa using hnot l hl
    | true =>
      intro B A ups hnd hB hA hsorted hchain hnot
      cases ups with
      | nil =>
        obtain ⟨ihs, ihc, ihl, ihcnt⟩ := ih [] [] [] List.nodup_nil (by simp) (by simp)
          (by simp) (by simp) (by simp)
        rw [promote]
        refine ⟨?_, ?_, ?_, ?_⟩
        · intro l hl
          rcases List.mem_cons.mp hl with rfl | hl
          · exact List.pairwise_singleton _ data
          · exact ihs l hl
        · refine List.chain'_cons.mpr ⟨?_, ?_⟩
          · rw [List.singleton_sublist]
            exact List.mem_append_right B (List.mem_cons_self data A)
          · simpa using ihc
        · rw [List.length_cons, ihl, leadingTrue]
          simp [leadingTrue]
        · rw [List.countP_cons_of_pos _ _ (by simp), ihcnt, leadingTrue]
      | cons lk rest =>
        rcases List.chain'_cons.mp hchain with ⟨hlksub, hchainrest⟩
        obtain ⟨u, v, hus, hlkuv, huB, hvA⟩ := upSplit_spec hi htr hnd hB hA hlksub
        have hlkSorted : List.Pairwise (fun a b => gt b a = true) lk :=
          hsorted lk (List.mem_cons_self lk rest)
        have hBu : ∀ x ∈ u, gt data x = true := fun x hx => hB x (huB.subset hx)
        have hAv : ∀ y ∈ v, gt y data = true := fun y hy => hA y (hvA.subset hy)
        have hchainrest2 : List.Chain' (fun low up => List.Sublist up low) ((u ++ v) :: rest) := by
          rw [← hlkuv]
          exact hchainrest
        obtain ⟨ihs, ihc, ihl, ihcnt⟩ := ih u v rest (huB.nodup hnd) hBu hAv
          (fun l hl => hsorted l (List.mem_cons_of_mem lk hl)) hchainrest2
          (fun l hl => hnot l (List.mem_cons_of_mem lk hl))
        have hnewSorted : List.Pairwise (fun a b => gt b a = true) (u ++ data :: v) := by
          have hlkP := hlkuv ▸ hlkSorted
          rw [List.pairwise_append] at hlkP
          rw [List.pairwise_append]
          refine ⟨hlkP.1, ?_, ?_⟩
          · rw [List.pairwise_cons]
            exact ⟨fun y hy => hAv y hy, hlkP.2.1⟩
          · intro x hx z hz
            rcases List.mem_cons.mp hz with rfl | hz
            · exact hBu x hx
            · exact hlkP.2.2 x hx z hz
        rw [promote]
        simp only [hus]
        refine ⟨?_, ?_, ?_, ?_⟩
        · intro l hl
          rcases List.mem_cons.mp hl with rfl | hl
          · exact hnewSorted
          · exact ihs l hl
        · refine List.chain'_cons.mpr ⟨?_, ihc⟩
          exact huB.append (hvA.cons₂ data)
        · rw [List.length_cons, ihl, leadingTrue, List.length_cons]
          omega
        · rw [List.countP_cons_of_pos _ _ (by simp), ihcnt, leadingTrue]

theorem sortedGt_splice {gt : α → α → Bool} {data : α} {B A : List α}
    (hs : SortedGt gt (B ++ A))
    (hB : ∀ x ∈ B, gt data x = true) (hA : ∀ y ∈ A, gt y data = true) :
    SortedGt gt (B ++ data :: A) := by
  have hp : List.Pairwise (fun a b => gt b a = true) (B ++ A) := hs
  rw [List.pairwise_append] at hp
  show List.Pairwise _ _
  rw [List.pairwise_append]
  refine ⟨hp.1, ?_, ?_⟩
  · rw [List.pairwise_cons]
    exact ⟨hA, hp.2.1⟩
  · intro x hx z hz
    rcases List.mem_cons.mp hz with rfl | hz
    · exact hB x hx
    · exact hp.2.2 x hx z hz

theorem level0_mem {sl : SkipList α} (h : sl.levels ≠ []) : level0 sl ∈ sl.levels := by
  rcases List.eq_nil_or_concat sl.levels with h0 | ⟨ys, y, hy⟩
  · exact absurd h0 h
  · rw [level0, hy, List.concat_eq_append, List.getLastD_concat]
    exact List.mem_append_right ys (List.mem_singleton_self y)

theorem levels_reverse_eq {sl : SkipList α} (h : sl.levels ≠ []) :
    sl.levels.reverse = level0 sl :: sl.levels.dropLast.reverse := by
  rcases List.eq_nil_or_concat sl.levels with h0 | ⟨ys, y, hy⟩
  · exact absurd h0 h
  · rw [level0, hy, List.concat_eq_append, List.getLastD_concat, List.reverse_append,
      List.dropLast_concat]
    rfl

theorem skip_list_insert_eq {sl : SkipList α}
    (hi : ∀ a, sl.gtf a a = false)
    (htr : ∀ a b c, sl.gtf a b = true → sl.gtf b c = true → sl.gtf a c = true)
    (hW : WF sl) (data : α) (flips : List Bool) :
    skip_list_insert sl data flips =
      if ((level0 sl).dropWhile (fun x => sl.gtf data x)).head? = some data then (0, sl)
      else (1, ⟨(promote data flips ((level0 sl).takeWhile (fun x => sl.gtf data x))
                  sl.levels.dropLast.reverse).reverse
                ++ [((level0 sl).takeWhile (fun x => sl.gtf data x)) ++
                    data :: ((level0 sl).dropWhile (fun x => sl.gtf data x))],
               sl.gtf, sl.size + 1⟩) := by
  have hl0 : SortedGt sl.gtf (level0 sl) := hW.sorted _ (level0_mem hW.ne)
  simp only [skip_list_insert, enter, find_previous_eq hW htr data,
    splitAfter_lastLt hi hl0 data]

theorem skip_list_remove_eq {sl : SkipList α}
    (hi : ∀ a, sl.gtf a a = false)
    (htr : ∀ a b c, sl.gtf a b = true → sl.gtf b c = true → sl.gtf a c = true)
    (hW : WF sl) (data : α) :
    skip_list_remove sl data =
      if ((level0 sl).dropWhile (fun x => sl.gtf data x)).head? = some data then
        (1, ⟨_reduce_height (deleteColumn data sl.levels.reverse).reverse,
             sl.gtf, sl.size - 1⟩)
      else (0, sl) := by
  have hl0 : SortedGt sl.gtf (level0 sl) := hW.sorted _ (level0_mem hW.ne)
  simp only [skip_list_remove, enter, find_previous_eq hW htr data,
    splitAfter_lastLt hi hl0 data]

theorem skip_list_contains_eq {sl : SkipList α}
    (hi : ∀ a, sl.gtf a a = false)
    (htr : ∀ a b c, sl.gtf a b = true → sl.gtf b c = true → sl.gtf a c = true)
    (hW : WF sl) (data : α) :
    skip_list_contains sl data =
      match ((level0 sl).dropWhile (fun x => sl.gtf data x)).head? with
      | none => 0
      | some x => if x = data then 1 else 0 := by
  have hl0 : SortedGt sl.gtf (level0 sl) := hW.sorted _ (level0_mem hW.ne)
  simp only [skip_list_contains, enter, find_previous_eq hW htr data,
    splitAfter_lastLt hi hl0 data]

theorem insert_context {sl : SkipList α} (hS : IsSTO sl.gtf) (hW : WF sl) {data : α}
    (hnd : ((level0 sl).dropWhile (fun x => sl.gtf data x)).head? ≠ some data) :
    ((level0 sl).takeWhile (fun x => sl.gtf data x)).Nodup ∧
    (∀ x ∈ (level0 sl).takeWhile (fun x => sl.gtf data x), sl.gtf data x = true) ∧
    (∀ y ∈ (level0 sl).dropWhile (fun x => sl.gtf data x), sl.gtf y data = true) ∧
    (∀ l ∈ sl.levels.dropLast.reverse, SortedGt sl.gtf l) ∧
    List.Chain' (fun low up => List.Sublist up low)
      (((level0 sl).takeWhile (fun x => sl.gtf data x) ++
        (level0 sl).dropWhile (fun x => sl.gtf data x)) :: sl.levels.dropLast.reverse) ∧
    (∀ l ∈ sl.levels.dropLast.reverse, data ∉ l) ∧
    data ∉ level0 sl := by
  have hl0 : SortedGt sl.gtf (level0 sl) := hW.sorted _ (level0_mem hW.ne)
  have hB : ∀ x ∈ (level0 sl).takeWhile (fun x => sl.gtf data x), sl.gtf data x = true :=
    fun x hx => List.mem_takeWhile_imp hx
  have hA : ∀ y ∈ (level0 sl).dropWhile (fun x => sl.gtf data x), sl.gtf y data = true :=
    dropWhile_all_gt hS.irrefl hS.trans hS.total hl0 hnd
  have hchain : List.Chain' (fun low up => List.Sublist up low)
      (((level0 sl).takeWhile (fun x => sl.gtf data x) ++
        (level0 sl).dropWhile (fun x => sl.gtf data x)) :: sl.levels.dropLast.reverse) := by
    rw [List.takeWhile_append_dropWhile]
    rw [← levels_reverse_eq hW.ne]
    exact hW.chain
  have hnotl0 : data ∉ level0 sl := by
    intro hmem
    conv at hmem => rw [← List.takeWhile_append_dropWhile
      (p := fun x => sl.gtf data x) (l := level0 sl)]
    rcases List.mem_append.mp hmem with hmB | hmA
    · have := hB data hmB
      rw [hS.irrefl data] at this
      exact Bool.false_ne_true this
    · have := hA data hmA
      rw [hS.irrefl data] at this
      exact Bool.false_ne_true this
  refine ⟨(List.takeWhile_sublist _).nodup (SortedGt.nodup hS.irrefl hl0), hB, hA, ?_, hchain, ?_, hnotl0⟩
  · intro l hl
    exact hW.sorted l ((sl.levels.dropLast_sublist.subset) (List.mem_reverse.mp hl))
  · intro l hl hmem
    have hsub : l.Sublist (level0 sl) := by
      have hc2 : List.Chain' (fun low up => List.Sublist up low)
          (level0 sl :: sl.levels.dropLast.reverse) := by
        rw [← levels_reverse_eq hW.ne]
        exact hW.chain
      exact chain'_sublist_all hc2 l hl
    exact hnotl0 (hsub.subset hmem)

theorem insert_gtf {sl : SkipList α} (data : α) (flips : List Bool) :
    (skip_list_insert sl data flips).2.gtf = sl.gtf := by
  rw [skip_list_insert]
  split
  · rfl
  · rfl

theorem remove_gtf {sl : SkipList α} (data : α) :
    (skip_list_remove sl data).2.gtf = sl.gtf := by
  rw [skip_list_remove]
  split
  · rfl
  · rfl

theorem insert_wf {sl : SkipList α} (hS : IsSTO sl.gtf) (hW : WF sl)
    (data : α) (flips : List Bool) : WF (skip_list_insert sl data flips).2 := by
  rw [skip_list_insert_eq hS.irrefl hS.trans hW data flips]
  split
  · exact hW
  · rename_i hnd
    obtain ⟨c1, c2, c3, c4, c5, c6, c7⟩ := insert_context hS hW hnd
    obtain ⟨ps, pc, pl, pcnt⟩ :=
      promote_spec hS.irrefl hS.trans flips _ _ _ c1 c2 c3 c4 c5 c6
    have hl0 : SortedGt sl.gtf (level0 sl) := hW.sorted _ (level0_mem hW.ne)
    have hnewL0 : SortedGt sl.gtf
        (((level0 sl).takeWhile (fun x => sl.gtf data x)) ++
          data :: ((level0 sl).dropWhile (fun x => sl.gtf data x))) := by
      refine sortedGt_splice ?_ c2 c3
      rw [List.takeWhile_append_dropWhile]
      exact hl0
    constructor
    · simp
    · intro l hl
      rcases List.mem_append.mp hl with hl | hl
      · exact ps l (List.mem_reverse.mp hl)
      · rcases List.mem_singleton.mp hl with rfl
        exact hnewL0
    · rw [List.reverse_append, List.reverse_reverse, List.reverse_singleton,
        List.singleton_append]
      exact pc

theorem deleteColumn_length (data : α) : ∀ ls : List (List α),
    (deleteColumn data ls).length = ls.length
  | [] => rfl
  | l :: ls => by
    rw [deleteColumn]
    by_cases h : data ∈ l
    · rw [if_pos h, List.length_cons, List.length_cons, deleteColumn_length data ls]
    · rw [if_neg h]

theorem deleteColumn_mem (data : α) : ∀ {ls : List (List α)} {l : List α},
    l ∈ deleteColumn data ls → ∃ l0 ∈ ls, l = l0 ∨ l = l0.erase data := by
  intro ls
  induction ls with
  | nil => intro l hl; simp [deleteColumn] at hl
  | cons x xs ih =>
    intro l hl
    rw [deleteColumn] at hl
    by_cases h : data ∈ x
    · rw [if_pos h] at hl
      rcases List.mem_cons.mp hl with heq | hl
      · exact ⟨x, List.mem_cons_self x xs, Or.inr heq⟩
      · obtain ⟨l0, hl0, hor⟩ := ih hl
        exact ⟨l0, List.mem_cons_of_mem x hl0, hor⟩
    · rw [if_neg h] at hl
      rcases List.mem_cons.mp hl with heq | hl
      · exact ⟨x, List.mem_cons_self x xs, Or.inl heq⟩
      · exact ⟨l, List.mem_cons_of_mem x hl, Or.inl rfl⟩

theorem deleteColumn_chain {data : α} : ∀ {ls : List (List α)},
    List.Chain' (fun low up => List.Sublist up low) ls →
    List.Chain' (fun low up => List.Sublist up low) (deleteColumn data ls) := by
  intro ls
  induction ls with
  | nil => intro h; simp [deleteColumn]
  | cons l ls ih =>
    intro h
    rw [deleteColumn]
    by_cases hmem : data ∈ l
    · rw [if_pos hmem]
      cases ls with
      | nil => simp [deleteColumn]
      | cons l2 rest =>
        rcases List.chain'_cons.mp h with ⟨h1, h2⟩
        have ih2 := ih h2
        rw [deleteColumn] at ih2 ⊢
        by_cases hmem2 : data ∈ l2
        · rw [if_pos hmem2] at ih2 ⊢
          exact List.chain'_cons.mpr ⟨h1.erase data, ih2⟩
        · rw [if_neg hmem2] at ih2 ⊢
          refine List.chain'_cons.mpr ⟨?_, ih2⟩
          rw [← List.erase_of_not_mem hmem2]
          exact h1.erase data
    · rw [if_neg hmem]
      exact h

theorem reduce_height_ne : ∀ {ls : List (List α)}, ls ≠ [] → _reduce_height ls ≠ [] := by
  intro ls
  induction ls with
  | nil => exact fun h => absurd rfl h
  | cons l ls ih =>
    intro _
    cases ls with
    | nil => simp [_reduce_height]
    | cons l2 rest =>
      rw [show _reduce_height (l :: l2 :: rest) =
        if l.isEmpty then _reduce_height (l2 :: rest) else l :: l2 :: rest from rfl]
      by_cases h : l.isEmpty
      · rw [if_pos h]
        exact ih (List.cons_ne_nil l2 rest)
      · rw [if_neg h]
        exact List.cons_ne_nil _ _

theorem reduce_height_eq_drop : ∀ ls : List (List α), ∃ k, _reduce_height ls = ls.drop k := by
  intro ls
  induction ls with
  | nil => exact ⟨0, rfl⟩
  | cons l ls ih =>
    cases ls with
    | nil => exact ⟨0, rfl⟩
    | cons l2 rest =>
      rw [show _reduce_height (l :: l2 :: rest) =
        if l.isEmpty then _reduce_height (l2 :: rest) else l :: l2 :: rest from rfl]
      by_cases h : l.isEmpty
      · rw [if_pos h]
        obtain ⟨k, hk⟩ := ih
        exact ⟨k + 1, hk⟩
      · rw [if_neg h]
        exact ⟨0, rfl⟩

theorem reduce_height_sublist (ls : List (List α)) : (_reduce_height ls).Sublist ls := by
  obtain ⟨k, hk⟩ := reduce_height_eq_drop ls
  rw [hk]
  exact List.drop_sublist k ls

theorem remove_wf {sl : SkipList α} (hS : IsSTO sl.gtf) (hW : WF sl)
    (data : α) : WF (skip_list_remove sl data).2 := by
  rw [skip_list_remove_eq hS.irrefl hS.trans hW data]
  split
  · have hdc : List.Chain' (fun low up => List.Sublist up low)
        (deleteColumn data sl.levels.reverse) := deleteColumn_chain hW.chain
    have hne : (deleteColumn data sl.levels.reverse).reverse ≠ [] := by
      intro h
      rw [List.reverse_eq_nil_iff] at h
      have := deleteColumn_length data sl.levels.reverse
      rw [h] at this
      simp only [List.length_nil, List.length_reverse] at this
      exact hW.ne (List.length_eq_zero.mp this.symm)
    constructor
    · exact reduce_height_ne hne
    · intro l hl
      have hl2 : l ∈ (deleteColumn data sl.levels.reverse).reverse :=
        (reduce_height_sublist _).subset hl
      rw [List.mem_reverse] at hl2
      obtain ⟨l0, hl0, hor⟩ := deleteColumn_mem data hl2
      have hs0 : SortedGt sl.gtf l0 := hW.sorted l0 (List.mem_reverse.mp hl0)
      rcases hor with rfl | rfl
      · exact hs0
      · exact List.Pairwise.sublist (List.erase_sublist data l0) hs0
    · obtain ⟨k, hk⟩ := reduce_height_eq_drop (deleteColumn data sl.levels.reverse).reverse
      rw [hk, List.reverse_drop]
      exact List.Chain'.take (by simpa using hdc) _
  · exact hW

theorem create_wf (gt : α → α → Bool) : WF (skip_list_create gt) := by
  constructor
  · simp [skip_list_create]
  · intro l hl
    rw [skip_list_create] at hl
    rcases List.mem_singleton.mp hl with rfl
    exact List.Pairwise.nil
  · simp [skip_list_create]

theorem reachable_gtf {gt : α → α → Bool} {sl : SkipList α}
    (h : ReachableSL gt sl) : sl.gtf = gt := by
  induction h with
  | create => rfl
  | insert data flips hr ih => rw [insert_gtf]; exact ih
  | remove data hr ih => rw [remove_gtf]; exact ih

theorem reachable_wf {gt : α → α → Bool} (hS : IsSTO gt) {sl : SkipList α}
    (h : ReachableSL gt sl) : WF sl := by
  induction h with
  | create => exact create_wf gt
  | insert data flips hr ih =>
    exact insert_wf (by rw [reachable_gtf hr]; exact hS) ih data flips
  | remove data hr ih =>
    exact remove_wf (by rw [reachable_gtf hr]; exact hS) ih data

theorem splitAfter_append (cur : Option α) (l : List α) :
    (splitAfter cur l).1 ++ (splitAfter cur l).2 = l := by
  cases cur with
  | none => rfl
  | some p =>
    rw [splitAfter, List.append_assoc, List.take_append_drop,
      List.takeWhile_append_dropWhile]

theorem enter_sublist (cur : Option α) (l : List α) : (enter cur l).Sublist l := by
  cases cur with
  | none => exact List.Sublist.refl l
  | some p =>
    rw [enter, splitAfter]
    exact ((List.drop_sublist 1 _).trans (List.dropWhile_sublist _))

theorem reduce_height_top : ∀ {ls : List (List α)}, ls ≠ [] →
    ((_reduce_height ls).headD [] ≠ [] ∨ (_reduce_height ls).length = 1) := by
  intro ls
  induction ls with
  | nil => exact fun h => absurd rfl h
  | cons l ls ih =>
    intro _
    cases ls with
    | nil => exact Or.inr rfl
    | cons l2 rest =>
      rw [show _reduce_height (l :: l2 :: rest) =
        if l.isEmpty then _reduce_height (l2 :: rest) else l :: l2 :: rest from rfl]
      by_cases h : l.isEmpty
      · rw [if_pos h]
        exact ih (List.cons_ne_nil l2 rest)
      · rw [if_neg h]
        refine Or.inl ?_
        simp only [List.headD_eq_head?_getD, List.head?_cons, Option.getD_some]
        exact fun h2 => h (List.isEmpty_iff.mpr h2)

theorem natGt_sto : IsSTO natGt := by
  constructor
  · intro a
    simp [natGt]
  · intro a b c h1 h2
    simp only [natGt, decide_eq_true_eq] at h1 h2 ⊢
    omega
  · intro a b h
    simp only [natGt, decide_eq_true_eq]
    omega

theorem wf_wB : WF wB := by
  refine ⟨by decide, ?_, ?_⟩
  · intro l hl
    have hl2 : l ∈ [[4], [2, 4]] := hl
    show List.Pairwise (fun a b => wB.gtf b a = true) l
    have hgt : wB.gtf = natGt := rfl
    rw [hgt]
    rcases List.mem_cons.mp hl2 with rfl | hl3
    · decide
    · rcases List.mem_singleton.mp hl3 with rfl
      decide
  · show List.Chain' (fun low up => List.Sublist up low) [[2, 4], [4]]
    refine List.chain'_cons.mpr ⟨?_, ?_⟩
    · exact List.singleton_sublist.mpr (by decide)
    · exact List.chain'_singleton _

theorem reach_wB : ReachableSL natGt wB :=
  ReachableSL.insert 2 [] (ReachableSL.insert 4 [true] ReachableSL.create)

/-- Claim C2: for every well-formed skip list (under the spec's comparison
contract), `_find_previous` started from the topmost header returns the
rightmost level-0 node whose payload is strictly ordered before the target
under `gt_func`, or the level-0 header (`none`) if no stored payload is
ordered before the target. -/
theorem claim_C2 {sl : SkipList α} (hS : IsSTO sl.gtf) (hW : WF sl) (data : α) :
    _find_previous sl.gtf data none sl.levels = rightmostBelow sl.gtf data (level0 sl) := by
  rw [find_previous_eq hW hS.trans data, rightmostBelow, lastLt,
    filter_eq_takeWhile hS.trans data (hW.sorted _ (level0_mem hW.ne))]

/-- Witness for C2 at a concrete two-level list. -/
theorem claim_C2_witness :
    IsSTO wB.gtf ∧ WF wB ∧
    _find_previous wB.gtf 3 none wB.levels = rightmostBelow wB.gtf 3 (level0 wB) :=
  ⟨natGt_sto, wf_wB, claim_C2 natGt_sto wf_wB 3⟩

/-- Claim C4: removing a payload with no order-equal stored payload returns 0
and leaves the structure (levels and size) unchanged. -/
theorem claim_C4 {sl : SkipList α} (hS : IsSTO sl.gtf) (hW : WF sl) {data : α}
    (habs : ∀ p ∈ level0 sl, sl.gtf data p = true ∨ sl.gtf p data = true) :
    skip_list_remove sl data = (0, sl) := by
  rw [skip_list_remove_eq hS.irrefl hS.trans hW data]
  split
  · rename_i hhead
    have hmem : data ∈ level0 sl :=
      (List.dropWhile_sublist _).subset (List.mem_of_mem_head? (Option.mem_def.mpr hhead))
    rcases habs data hmem with h | h <;>
      · rw [hS.irrefl data] at h
        exact absurd h Bool.false_ne_true
  · rfl

/-- Witness for C4: removing 3 from a list holding 2 and 4. -/
theorem claim_C4_witness :
    IsSTO wB.gtf ∧ WF wB ∧ (∀ p ∈ level0 wB, wB.gtf 3 p = true ∨ wB.gtf p 3 = true) ∧
    skip_list_remove wB 3 = (0, wB) :=
  ⟨natGt_sto, wf_wB, by decide, claim_C4 natGt_sto wf_wB (by decide)⟩

/-- Claim C5: on every skip list reachable from `skip_list_create` by inserts
and removes (under the spec's comparison contract), the level-0 payload
sequence is strictly increasing under `gt_func`. -/
theorem claim_C5 {gt : α → α → Bool} (hS : IsSTO gt) {sl : SkipList α}
    (hR : ReachableSL gt sl) : SortedGt gt (level0 sl) := by
  have hW := reachable_wf hS hR
  have h := hW.sorted _ (level0_mem hW.ne)
  rwa [reachable_gtf hR] at h

/-- Witness for C5 on a reachable two-level list. -/
theorem claim_C5_witness :
    IsSTO natGt ∧ ReachableSL natGt wB ∧ SortedGt natGt (level0 wB) :=
  ⟨natGt_sto, reach_wB, claim_C5 natGt_sto reach_wB⟩

/-- Claim C7: after every successful `skip_list_remove` the topmost level is
non-empty or only level 0 remains; and if the removal emptied level 0, the
structure is reduced to a single empty level 0. -/
theorem claim_C7 {gt : α → α → Bool} (hS : IsSTO gt) {sl sl2 : SkipList α}
    (hR : ReachableSL gt sl) (data : α)
    (hrm : skip_list_remove sl data = (1, sl2)) :
    (sl2.levels.headD [] ≠ [] ∨ sl2.levels.length = 1) ∧
    (level0 sl2 = [] → sl2.levels = [[]]) := by
  have hW := reachable_wf hS hR
  have hS2 : IsSTO sl.gtf := by rw [reachable_gtf hR]; exact hS
  have hW2 : WF sl2 := by
    have h := remove_wf hS2 hW data
    rw [hrm] at h
    exact h
  rw [skip_list_remove_eq hS2.irrefl hS2.trans hW data] at hrm
  have hpart1 : sl2.levels.headD [] ≠ [] ∨ sl2.levels.length = 1 := by
    split at hrm
    · have hlev : sl2.levels =
          _reduce_height (deleteColumn data sl.levels.reverse).reverse := by
        have h2 := congrArg Prod.snd hrm
        simp only at h2
        rw [← h2]
      rw [hlev]
      apply reduce_height_top
      intro h
      rw [List.reverse_eq_nil_iff] at h
      have hlen := deleteColumn_length data sl.levels.reverse
      rw [h] at hlen
      simp only [List.length_nil, List.length_reverse] at hlen
      exact hW.ne (List.length_eq_zero.mp hlen.symm)
    · exact absurd (congrArg Prod.fst hrm) (by simp)
  refine ⟨hpart1, ?_⟩
  intro hempty
  have hallmem : ∀ l ∈ sl2.levels, l = [] := by
    intro l hl
    have hc : List.Chain' (fun low up => List.Sublist up low)
        (level0 sl2 :: sl2.levels.dropLast.reverse) := by
      rw [← levels_reverse_eq hW2.ne]
      exact hW2.chain
    rw [← List.mem_reverse, levels_reverse_eq hW2.ne] at hl
    rcases List.mem_cons.mp hl with rfl | hl
    · exact hempty
    · have h3 := chain'_sublist_all hc l hl
      rw [hempty] at h3
      exact List.sublist_nil.mp h3
  rcases hpart1 with h | h
  · exfalso
    cases hl2 : sl2.levels with
    | nil => exact hW2.ne hl2
    | cons x xs =>
      rw [hl2] at h
      simp only [List.headD_eq_head?_getD, List.head?_cons, Option.getD_some] at h
      exact h (hallmem x (by rw [hl2]; exact List.mem_cons_self x xs))
  · obtain ⟨x, hx⟩ := List.length_eq_one.mp h
    rw [hx]
    rw [hallmem x (by rw [hx]; exact List.mem_singleton_self x)]

/-- Witness for C7: removing 4 from a two-level list holding 2 and 4. -/
theorem claim_C7_witness :
    IsSTO natGt ∧ ReachableSL natGt wB ∧ skip_list_remove wB 4 = (1, wRm) ∧
    ((wRm.levels.headD [] ≠ [] ∨ wRm.levels.length = 1) ∧
      (level0 wRm = [] → wRm.levels = [[]])) :=
  ⟨natGt_sto, reach_wB, rfl, claim_C7 natGt_sto reach_wB 4 rfl⟩

/-- Claim C8: a successful insert (under the spec's comparison contract, on a
reachable list) places the element at level 0 unconditionally and one level
higher per leading heads, growing the structure when promotion passes the
current top: the element's column height is 1 plus the number of leading
heads, and the new height is the maximum of the old height and that column
height. -/
theorem claim_C8 {gt : α → α → Bool} (hS : IsSTO gt) {sl sl2 : SkipList α}
    (hR : ReachableSL gt sl) (data : α) (flips : List Bool)
    (hins : skip_list_insert sl data flips = (1, sl2)) :
    data ∈ level0 sl2 ∧ colHeight sl2 data = 1 + leadingTrue flips ∧
    sl2.levels.length = max sl.levels.length (1 + leadingTrue flips) := by
  have hW := reachable_wf hS hR
  have hS2 : IsSTO sl.gtf := by rw [reachable_gtf hR]; exact hS
  rw [skip_list_insert_eq hS2.irrefl hS2.trans hW data flips] at hins
  split at hins
  · exact absurd (congrArg Prod.fst hins) (by simp)
  · rename_i hnd
    obtain ⟨c1, c2, c3, c4, c5, c6, c7⟩ := insert_context hS2 hW hnd
    obtain ⟨ps, pc, pl, pcnt⟩ :=
      promote_spec hS2.irrefl hS2.trans flips _ _ _ c1 c2 c3 c4 c5 c6
    have hlev : sl2.levels =
        (promote data flips ((level0 sl).takeWhile (fun x => sl.gtf data x))
          sl.levels.dropLast.reverse).reverse
        ++ [((level0 sl).takeWhile (fun x => sl.gtf data x)) ++
            data :: ((level0 sl).dropWhile (fun x => sl.gtf data x))] := by
      have h2 := congrArg Prod.snd hins
      simp only at h2
      rw [← h2]
    have hl0 : level0 sl2 =
        ((level0 sl).takeWhile (fun x => sl.gtf data x)) ++
          data :: ((level0 sl).dropWhile (fun x => sl.gtf data x)) := by
      rw [level0, hlev, List.getLastD_concat]
    refine ⟨?_, ?_, ?_⟩
    · rw [hl0]
      exact List.mem_append_right _ (List.mem_cons_self _ _)
    · rw [colHeight, hlev, List.countP_append, List.countP_reverse, pcnt]
      have hone : List.countP (fun l => decide (data ∈ l))
          [((level0 sl).takeWhile (fun x => sl.gtf data x)) ++
            data :: ((level0 sl).dropWhile (fun x => sl.gtf data x))] = 1 := by
        rw [List.countP_cons_of_pos]
        · rfl
        · simp
      rw [hone]
      omega
    · rw [hlev, List.length_append, List.length_reverse, pl]
      simp only [List.length_cons, List.length_nil, List.length_reverse,
        List.length_dropLast]
      have hlenpos : 0 < sl.levels.length := by
        cases h : sl.levels with
        | nil => exact absurd h hW.ne
        | cons x xs => simp
      omega

/-- Witness for C8: inserting 3 with flips `[true, false]` into a reachable
two-level list. -/
theorem claim_C8_witness :
    IsSTO natGt ∧ ReachableSL natGt wB ∧
    skip_list_insert wB 3 [true, false] = (1, (skip_list_insert wB 3 [true, false]).2) ∧
    (3 ∈ level0 (skip_list_insert wB 3 [true, false]).2 ∧
      colHeight (skip_list_insert wB 3 [true, false]).2 3 = 1 + leadingTrue [true, false] ∧
      (skip_list_insert wB 3 [true, false]).2.levels.length =
        max wB.levels.length (1 + leadingTrue [true, false])) :=
  ⟨natGt_sto, reach_wB, rfl, claim_C8 natGt_sto reach_wB 3 [true, false] rfl⟩

/-- Counterexample to claim C3 as stated: the list `hT` stores the payload 4,
which is order-equal to the distinct payload 5 under `halfGt`, yet
`skip_list_insert` accepts 5 (returns 1) and changes the size: the duplicate
test compares pointer identity, not order-equality. -/
theorem claim_C3_counterexample :
    (halfGt 5 4 = false ∧ halfGt 4 5 = false ∧ 4 ∈ level0 hT) ∧
    (skip_list_insert hT 5 []).1 = 1 ∧ (skip_list_insert hT 5 []).2.size = hT.size + 1 := by
  refine ⟨⟨by decide, by decide, by decide⟩, by decide, by decide⟩

/-- Claim C3 (amended): inserting a payload that is *itself* already stored
(same pointer) returns the failure indicator 0 and leaves the skip list
completely unchanged. -/
theorem claim_C3 {sl : SkipList α} (hS : IsSTO sl.gtf) (hW : WF sl) (data : α)
    (hmem : data ∈ level0 sl) (flips : List Bool) :
    skip_list_insert sl data flips = (0, sl) := by
  rw [skip_list_insert_eq hS.irrefl hS.trans hW data flips]
  have hsplit := List.takeWhile_append_dropWhile
    (p := fun x => sl.gtf data x) (l := level0 sl)
  have hmem2 : data ∈ (level0 sl).takeWhile (fun x => sl.gtf data x) ++
      (level0 sl).dropWhile (fun x => sl.gtf data x) := by
    rw [hsplit]
    exact hmem
  have hnotB : data ∉ (level0 sl).takeWhile (fun x => sl.gtf data x) := by
    intro h
    have h2 := List.mem_takeWhile_imp h
    rw [hS.irrefl data] at h2
    exact Bool.false_ne_true h2
  have hmemA : data ∈ (level0 sl).dropWhile (fun x => sl.gtf data x) := by
    rcases List.mem_append.mp hmem2 with h | h
    · exact absurd h hnotB
    · exact h
  cases hd : (level0 sl).dropWhile (fun x => sl.gtf data x) with
  | nil =>
    rw [hd] at hmemA
    exact absurd hmemA (List.not_mem_nil data)
  | cons y t =>
    have hyd : y = data := by
      by_contra hne
      rw [hd] at hmemA
      rcases List.mem_cons.mp hmemA with h | h
      · exact hne h.symm
      · have hsorted : SortedGt sl.gtf (y :: t) := by
          have hsub : (y :: t).Sublist (level0 sl) := hd ▸ List.dropWhile_sublist _
          exact List.Pairwise.sublist hsub (hW.sorted _ (level0_mem hW.ne))
        have hgt : sl.gtf data y = true := (List.pairwise_cons.mp hsorted).1 data h
        have hgt2 : sl.gtf data y = false := dropWhile_head_false hd
        rw [hgt2] at hgt
        exact Bool.false_ne_true hgt
    rw [if_pos (show (y :: t).head? = some data by rw [List.head?_cons, hyd])]

/-- Witness for the amended C3: re-inserting the stored payload 4. -/
theorem claim_C3_witness :
    IsSTO wB.gtf ∧ WF wB ∧ 4 ∈ level0 wB ∧
    skip_list_insert wB 4 [true] = (0, wB) :=
  ⟨natGt_sto, wf_wB, by decide, claim_C3 natGt_sto wf_wB 4 (by decide) [true]⟩

/-- Claim C1, evaluated at the failing input: the list `hT` stores only the
payload 4; the stored payloads are pairwise order-inequivalent under
`halfGt`, the target 5 is order-equal to the stored 4, yet
`skip_list_contains` returns 0 because it compares pointer identity
(`_data == data`), not order-equality. -/
theorem claim_C1 :
    (∀ p ∈ level0 hT, ∀ q ∈ level0 hT, p ≠ q → halfGt p q = true ∨ halfGt q p = true) ∧
    (halfGt 5 4 = false ∧ halfGt 4 5 = false ∧ 4 ∈ level0 hT) ∧
    skip_list_contains hT 5 = 0 := by
  refine ⟨by decide, ⟨by decide, by decide, by decide⟩, by decide⟩

/-- Claim C10: insert and remove decide presence by pointer identity: when a
stored payload `p` is order-equal to a distinct, unstored payload `q`,
`skip_list_insert` accepts `q` (returns 1, adds it next to `p`, increments
the size) and `skip_list_remove` of `q` returns 0 and changes nothing. -/
theorem claim_C10 {sl : SkipList α} {p q : α}
    (hp : p ∈ level0 sl) (hq : q ∉ level0 sl) (hne : p ≠ q)
    (heq1 : sl.gtf p q = false) (heq2 : sl.gtf q p = false) (flips : List Bool) :
    (skip_list_insert sl q flips).1 = 1 ∧
    q ∈ level0 (skip_list_insert sl q flips).2 ∧
    p ∈ level0 (skip_list_insert sl q flips).2 ∧
    (skip_list_insert sl q flips).2.size = sl.size + 1 ∧
    skip_list_remove sl q = (0, sl) := by
  have hguard : ∀ cur : Option α, ¬((enter cur (level0 sl)).head? = some q) := by
    intro cur h
    exact hq ((enter_sublist cur (level0 sl)).subset
      (List.mem_of_mem_head? (Option.mem_def.mpr h)))
  have hins : skip_list_insert sl q flips =
      (1, { sl with
            levels := (promote q flips
                (splitAfter (_find_previous sl.gtf q none sl.levels) (level0 sl)).1
                sl.levels.dropLast.reverse).reverse
              ++ [(splitAfter (_find_previous sl.gtf q none sl.levels) (level0 sl)).1 ++
                  q :: (splitAfter (_find_previous sl.gtf q none sl.levels) (level0 sl)).2],
            size := sl.size + 1 }) := by
    simp only [skip_list_insert]
    rw [if_neg (hguard _)]
  have hrem : skip_list_remove sl q = (0, sl) := by
    simp only [skip_list_remove]
    rw [if_neg (hguard _)]
  have hl0 : level0 (skip_list_insert sl q flips).2 =
      (splitAfter (_find_previous sl.gtf q none sl.levels) (level0 sl)).1 ++
        q :: (splitAfter (_find_previous sl.gtf q none sl.levels) (level0 sl)).2 := by
    rw [hins, level0, List.getLastD_concat]
  refine ⟨by rw [hins], ?_, ?_, by rw [hins], hrem⟩
  · rw [hl0]
    exact List.mem_append_right _ (List.mem_cons_self _ _)
  · rw [hl0]
    have hp2 : p ∈ (splitAfter (_find_previous sl.gtf q none sl.levels) (level0 sl)).1 ++
        (splitAfter (_find_previous sl.gtf q none sl.levels) (level0 sl)).2 := by
      rw [splitAfter_append]
      exact hp
    rcases List.mem_append.mp hp2 with h | h
    · exact List.mem_append_left _ h
    · exact List.mem_append_right _ (List.mem_cons_of_mem q h)

/-- Witness for C10: `hT` stores 4 (order-equal to the distinct 5 under
`halfGt`); inserting 5 succeeds and duplicates the order-class, removing 5
is a no-op. -/
theorem claim_C10_witness :
    (4 ∈ level0 hT ∧ 5 ∉ level0 hT ∧ (4 : Nat) ≠ 5 ∧
      hT.gtf 4 5 = false ∧ hT.gtf 5 4 = false) ∧
    ((skip_list_insert hT 5 []).1 = 1 ∧
      5 ∈ level0 (skip_list_insert hT 5 []).2 ∧
      4 ∈ level0 (skip_list_insert hT 5 []).2 ∧
      (skip_list_insert hT 5 []).2.size = hT.size + 1 ∧
      skip_list_remove hT 5 = (0, hT)) :=
  ⟨⟨by decide, by decide, by decide, by decide, by decide⟩,
    claim_C10 (by decide) (by decide) (by decide) (by decide) (by decide) []⟩

theorem nodeAt_header {L : List (List α)} {j : Nat} (h : j < L.length) :
    nodeAt L j 0 = some (headerNode L j) := by
  rw [nodeAt, if_pos h]
  rfl

theorem nodeAt_elem {L : List (List α)} {j i : Nat} {p : α} (hj : j < L.length)
    (hp : (L.getD j []).get? i = some p) :
    nodeAt L j (i + 1) = some (elemNode L j (i + 1) p) := by
  rw [nodeAt, if_pos hj, if_neg (by omega)]
  simp only [Nat.add_sub_cancel, hp]

theorem nodeAt_eq_some {L : List (List α)} {j i : Nat} {nd : HNode α}
    (h : nodeAt L j i = some nd) :
    j < L.length ∧
      ((i = 0 ∧ nd = headerNode L j) ∨
        ∃ p, i ≠ 0 ∧ (L.getD j []).get? (i - 1) = some p ∧ nd = elemNode L j i p) := by
  rw [nodeAt] at h
  by_cases hjlen : j < L.length
  · rw [if_pos hjlen] at h
    refine ⟨hjlen, ?_⟩
    by_cases hi0 : i = 0
    · rw [if_pos hi0] at h
      exact Or.inl ⟨hi0, (Option.some_inj.mp h).symm⟩
    · rw [if_neg hi0] at h
      cases hp : (L.getD j []).get? (i - 1) with
      | none =>
        rw [hp] at h
        exact absurd h (by simp)
      | some p =>
        rw [hp] at h
        exact Or.inr ⟨p, hi0, rfl, (Option.some_inj.mp h).symm⟩
  · rw [if_neg hjlen] at h
    exact absurd h (by simp)

theorem chain'_getD {L : List (List α)}
    (hc : List.Chain' (fun low up => List.Sublist up low) L) :
    ∀ j, j + 1 < L.length → (L.getD (j + 1) []).Sublist (L.getD j []) := by
  induction L with
  | nil =>
    intro j h
    simp at h
  | cons x xs ih =>
    intro j h
    cases xs with
    | nil =>
      simp at h
    | cons y ys =>
      rcases List.chain'_cons.mp hc with ⟨h1, h2⟩
      cases j with
      | zero => simpa using h1
      | succ k =>
        have h3 := ih h2 k (by simpa using h)
        simpa using h3

theorem heapOf_down_dat {L : List (List α)}
    (hc : List.Chain' (fun low up => List.Sublist up low) L) :
    ∀ id nd d, heapOf L id = some nd → nd.nextLayer = some d →
      ∃ nd2, heapOf L d = some nd2 ∧ nd2.dat = nd.dat := by
  intro id nd d hnd hdl
  rw [heapOf] at hnd
  obtain ⟨hjlen, hcase⟩ := nodeAt_eq_some hnd
  rcases hcase with ⟨hi0, rfl⟩ | ⟨p, hi0, hp, rfl⟩
  · simp only [headerNode] at hdl
    by_cases hj0 : (Nat.unpair id).1 = 0
    · rw [if_pos hj0] at hdl
      exact absurd hdl (by simp)
    · rw [if_neg hj0] at hdl
      have hd2 : d = Nat.pair ((Nat.unpair id).1 - 1) 0 := (Option.some_inj.mp hdl).symm
      refine ⟨headerNode L ((Nat.unpair id).1 - 1), ?_, rfl⟩
      rw [hd2, heapOf, Nat.unpair_pair]
      exact nodeAt_header (by omega)
  · simp only [elemNode] at hdl
    by_cases hj0 : (Nat.unpair id).1 = 0
    · rw [if_pos hj0] at hdl
      exact absurd hdl (by simp)
    · rw [if_neg hj0] at hdl
      have hpmem : p ∈ L.getD ((Nat.unpair id).1) [] := List.get?_mem hp
      have hsub : (L.getD ((Nat.unpair id).1 - 1 + 1) []).Sublist
          (L.getD ((Nat.unpair id).1 - 1) []) :=
        chain'_getD hc ((Nat.unpair id).1 - 1) (by omega)
      rw [show (Nat.unpair id).1 - 1 + 1 = (Nat.unpair id).1 from by omega] at hsub
      have hpmem2 : p ∈ L.getD ((Nat.unpair id).1 - 1) [] := hsub.subset hpmem
      have hidx : (L.getD ((Nat.unpair id).1 - 1) []).indexOf p <
          (L.getD ((Nat.unpair id).1 - 1) []).length :=
        List.indexOf_lt_length.mpr hpmem2
      have hget : (L.getD ((Nat.unpair id).1 - 1) []).get?
          ((L.getD ((Nat.unpair id).1 - 1) []).indexOf p) = some p := by
        rw [List.get?_eq_get hidx, List.indexOf_get hidx]
      have hd2 : d = Nat.pair ((Nat.unpair id).1 - 1)
          ((L.getD ((Nat.unpair id).1 - 1) []).indexOf p + 1) :=
        (Option.some_inj.mp hdl).symm
      refine ⟨elemNode L ((Nat.unpair id).1 - 1)
        ((L.getD ((Nat.unpair id).1 - 1) []).indexOf p + 1) p, ?_, rfl⟩
      rw [hd2, heapOf, Nat.unpair_pair]
      exact nodeAt_elem (by omega) hget

/-- Claim C6: on every reachable skip list (under the spec's comparison
contract), each level's payload sequence is a subsequence, in order, of the
level below it, and in the node graph every downward link reaches a node
holding the same payload (its counterpart one level down). -/
theorem claim_C6 {gt : α → α → Bool} (hS : IsSTO gt) {sl : SkipList α}
    (hR : ReachableSL gt sl) :
    List.Chain' (fun up low => List.Sublist up low) sl.levels ∧
    (∀ id nd d, heapOf sl.levels.reverse id = some nd → nd.nextLayer = some d →
      ∃ nd2, heapOf sl.levels.reverse d = some nd2 ∧ nd2.dat = nd.dat) := by
  have hW := reachable_wf hS hR
  exact ⟨hW.chainTD, heapOf_down_dat hW.chain⟩

/-- Witness for C6 on a reachable two-level list. -/
theorem claim_C6_witness :
    IsSTO natGt ∧ ReachableSL natGt wB ∧
    (List.Chain' (fun up low => List.Sublist up low) wB.levels ∧
      (∀ id nd d, heapOf wB.levels.reverse id = some nd → nd.nextLayer = some d →
        ∃ nd2, heapOf wB.levels.reverse d = some nd2 ∧ nd2.dat = nd.dat)) :=
  ⟨natGt_sto, reach_wB, claim_C6 natGt_sto reach_wB⟩

theorem severNd_idem (nd : HNode α) : severNd (severNd nd) = severNd nd := rfl

theorem dsl_none (fuel : Nat) (h : SLHeap α) :
    _delete_skip_list fuel h none = (h, []) := by
  cases fuel <;> rfl

theorem dsl_zero (h : SLHeap α) (cur : Option Nat) :
    _delete_skip_list 0 h cur = (h, []) := rfl

theorem severNd_header0 (L : List (List α)) : severNd (headerNode L 0) = headerNode L 0 := rfl

theorem severNd_elem0 (L : List (List α)) (i : Nat) (p : α) :
    severNd (elemNode L 0 i p) = elemNode L 0 i p := rfl

theorem stageH_zero (L : List (List α)) : stageH L 0 = heapOf L := by
  funext id
  rw [stageH]
  rw [if_neg (by omega)]
  by_cases h0 : (Nat.unpair id).1 = 0
  · rw [if_pos h0, heapOf, h0]
    cases hn : nodeAt L 0 (Nat.unpair id).2 with
    | none => rfl
    | some nd =>
      obtain ⟨hj, hcase⟩ := nodeAt_eq_some hn
      rcases hcase with ⟨hi, rfl⟩ | ⟨p, hi, hp, rfl⟩
      · rw [Option.map_some', severNd_header0]
      · rw [Option.map_some', severNd_elem0]
  · rw [if_neg h0]

theorem stageH_at_lt {L : List (List α)} {k : Nat} {id : Nat}
    (h : (Nat.unpair id).1 < k) : stageH L k id = none := by
  rw [stageH, if_pos h]

theorem stageH_at_eq {L : List (List α)} {k : Nat} {id : Nat}
    (h : (Nat.unpair id).1 = k) : stageH L k id = (heapOf L id).map severNd := by
  rw [stageH, if_neg (by omega), if_pos h]

theorem stageH_at_gt {L : List (List α)} {k : Nat} {id : Nat}
    (h : k < (Nat.unpair id).1) : stageH L k id = heapOf L id := by
  rw [stageH, if_neg (by omega), if_neg (by omega)]

theorem stageH_elem {L : List (List α)} {j i : Nat} {p : α} (hj : j < L.length)
    (hp : (L.getD j []).get? i = some p) :
    stageH L j (Nat.pair j (i + 1)) = some (severNd (elemNode L j (i + 1) p)) := by
  rw [stageH_at_eq (by rw [Nat.unpair_pair])]
  rw [heapOf, Nat.unpair_pair, nodeAt_elem hj hp, Option.map_some']

theorem stageH_header {L : List (List α)} {j : Nat} (hj : j < L.length) :
    stageH L j (Nat.pair j 0) = some (severNd (headerNode L j)) := by
  rw [stageH_at_eq (by rw [Nat.unpair_pair])]
  rw [heapOf, Nat.unpair_pair, nodeAt_header hj, Option.map_some']

theorem mem_rowSuffix {L : List (List α)} {j t id : Nat} :
    id ∈ rowSuffix L j t ↔
      ∃ i, t ≤ i ∧ i < (L.getD j []).length ∧ id = Nat.pair j (i + 1) := by
  rw [rowSuffix, List.mem_reverse, List.mem_map]
  constructor
  · rintro ⟨i, hi, rfl⟩
    rw [List.mem_range] at hi
    exact ⟨t + i, by omega, by omega, rfl⟩
  · rintro ⟨i, h1, h2, rfl⟩
    refine ⟨i - t, ?_, ?_⟩
    · rw [List.mem_range]
      omega
    · rw [show t + (i - t) + 1 = i + 1 from by omega]

theorem mem_upTargets {L : List (List α)} {j t id : Nat} :
    id ∈ upTargets L j t ↔
      ∃ p, p ∈ (L.getD j []).drop t ∧ p ∈ L.getD (j + 1) [] ∧
        id = Nat.pair (j + 1) ((L.getD (j + 1) []).indexOf p + 1) := by
  rw [upTargets, List.mem_filterMap]
  constructor
  · rintro ⟨p, hp, hf⟩
    by_cases hmem : p ∈ L.getD (j + 1) []
    · rw [if_pos hmem] at hf
      exact ⟨p, hp, hmem, (Option.some_inj.mp hf).symm⟩
    · rw [if_neg hmem] at hf
      exact absurd hf (by simp)
  · rintro ⟨p, hp, hmem, rfl⟩
    exact ⟨p, hp, by rw [if_pos hmem]⟩

theorem rowSuffix_level {L : List (List α)} {j t id : Nat} (h : id ∈ rowSuffix L j t) :
    (Nat.unpair id).1 = j ∧ t + 1 ≤ (Nat.unpair id).2 := by
  obtain ⟨i, h1, h2, rfl⟩ := mem_rowSuffix.mp h
  rw [Nat.unpair_pair]
  exact ⟨rfl, by omega⟩

theorem upTargets_level {L : List (List α)} {j t id : Nat} (h : id ∈ upTargets L j t) :
    (Nat.unpair id).1 = j + 1 := by
  obtain ⟨p, _, _, rfl⟩ := mem_upTargets.mp h
  rw [Nat.unpair_pair]

theorem rowSuffix_peel {L : List (List α)} {j t : Nat} (h : t < (L.getD j []).length) :
    rowSuffix L j t = rowSuffix L j (t + 1) ++ [Nat.pair j (t + 1)] := by
  rw [rowSuffix, rowSuffix]
  rw [show (L.getD j []).length - t = ((L.getD j []).length - (t + 1)) + 1 from by omega]
  rw [List.range_succ_eq_map, List.map_cons, List.reverse_cons, List.map_map]
  have hmap : (fun i => Nat.pair j (t + i + 1)) ∘ Nat.succ =
      fun i => Nat.pair j (t + 1 + i + 1) := by
    funext i
    simp only [Function.comp_apply, Nat.succ_eq_add_one]
    rw [show t + (i + 1) + 1 = t + 1 + i + 1 from by omega]
  rw [hmap]

theorem upTargets_peel {L : List (List α)} {j t : Nat} {p : α}
    (hp : (L.getD j []).get? t = some p) :
    upTargets L j t =
      (if p ∈ L.getD (j + 1) [] then
        [Nat.pair (j + 1) ((L.getD (j + 1) []).indexOf p + 1)] else [])
      ++ upTargets L j (t + 1) := by
  have hlen : t < (L.getD j []).length := by
    by_contra hge
    rw [List.get?_eq_none.mpr (by omega)] at hp
    exact Option.noConfusion hp
  have hdrop : (L.getD j []).drop t = p :: (L.getD j []).drop (t + 1) := by
    rw [List.drop_eq_get_cons hlen]
    rw [List.get?_eq_get hlen] at hp
    rw [Option.some_inj.mp hp]
  rw [upTargets, hdrop, List.filterMap_cons, upTargets]
  by_cases hmem : p ∈ L.getD (j + 1) []
  · rw [if_pos hmem, if_pos hmem]
    rfl
  · rw [if_neg hmem, if_neg hmem]
    rfl

theorem rowStage_len (L : List (List α)) (j : Nat) (g : SLHeap α) :
    rowStage L j (L.getD j []).length g = g := by
  funext k
  have hnU : k ∉ upTargets L j (L.getD j []).length := by
    intro hmem
    obtain ⟨p, hp, _, _⟩ := mem_upTargets.mp hmem
    rw [List.drop_length] at hp
    exact List.not_mem_nil p hp
  have hnS : k ∉ rowSuffix L j (L.getD j []).length := by
    intro hmem
    obtain ⟨i, h1, h2, _⟩ := mem_rowSuffix.mp hmem
    omega
  rw [rowStage, severAll, if_neg hnU, freeAll, if_neg hnS]

theorem rowStage_at {L : List (List α)} {j t : Nat} {g : SLHeap α} {id : Nat}
    (h1 : (Nat.unpair id).1 = j) (h2 : (Nat.unpair id).2 < t + 1) :
    rowStage L j t g id = g id := by
  have hnU : id ∉ upTargets L j t := by
    intro hmem
    have h3 := upTargets_level hmem
    omega
  have hnS : id ∉ rowSuffix L j t := by
    intro hmem
    have h3 := rowSuffix_level hmem
    omega
  rw [rowStage, severAll, if_neg hnU, freeAll, if_neg hnS]

theorem dsl_step {fuel : Nat} {h : SLHeap α} {id : Nat} {nd : HNode α} (hid : h id = some nd) :
    _delete_skip_list (fuel + 1) h (some id) =
      (let r1 := _delete_skip_list fuel h nd.nextLayer
       let r2 := match r1.1 id with
                 | none => r1
                 | some nd1 =>
                     ((_delete_skip_list fuel r1.1 nd1.nextNode).1,
                      r1.2 ++ (_delete_skip_list fuel r1.1 nd1.nextNode).2)
       let h2 := match r2.1 id with
                 | none => r2.1
                 | some nd2 => match nd2.prevLayer with
                               | none => r2.1
                               | some up => hsever r2.1 up
       (hfree h2 id, r2.2 ++ [id])) := by
  rw [_delete_skip_list, hid]

theorem elemNode_prevLayer (L : List (List α)) (j i : Nat) (p : α) :
    (elemNode L j i p).prevLayer =
      if p ∈ L.getD (j + 1) [] then
        some (Nat.pair (j + 1) ((L.getD (j + 1) []).indexOf p + 1))
      else none := rfl

theorem elemNode_nextNode (L : List (List α)) (j i : Nat) (p : α) :
    (elemNode L j i p).nextNode =
      if i < (L.getD j []).length then some (Nat.pair j (i + 1)) else none := rfl

theorem elemNode_dat (L : List (List α)) (j i : Nat) (p : α) :
    (elemNode L j i p).dat = some p := rfl

theorem headerNode_nextNode (L : List (List α)) (j : Nat) :
    (headerNode L j).nextNode =
      if L.getD j [] = [] then none else some (Nat.pair j 1) := rfl

theorem headerNode_prevLayer (L : List (List α)) (j : Nat) :
    (headerNode L j).prevLayer =
      if j + 1 < L.length then some (Nat.pair (j + 1) 0) else none := rfl

theorem headerNode_nextLayer (L : List (List α)) (j : Nat) :
    (headerNode L j).nextLayer =
      if j = 0 then none else some (Nat.pair (j - 1) 0) := rfl

theorem severNd_nextLayer (nd : HNode α) : (severNd nd).nextLayer = none := rfl

theorem severNd_nextNode (nd : HNode α) : (severNd nd).nextNode = nd.nextNode := rfl

theorem severNd_prevLayer (nd : HNode α) : (severNd nd).prevLayer = nd.prevLayer := rfl

theorem severNd_dat (nd : HNode α) : (severNd nd).dat = nd.dat := rfl

theorem rowStage_mem_eq {L : List (List α)} {j t : Nat} {g : SLHeap α} {k : Nat} :
    rowStage L j t g k =
      if k ∈ rowSuffix L j t then none
      else if k ∈ upTargets L j t then (g k).map severNd
      else g k := by
  rw [rowStage, severAll, freeAll]
  by_cases hS : k ∈ rowSuffix L j t <;> by_cases hU : k ∈ upTargets L j t <;>
    simp [hS, hU]

theorem map_severNd_idem (o : Option (HNode α)) :
    (o.map severNd).map severNd = o.map severNd := by
  cases o <;> rfl

theorem rowStage_step {L : List (List α)} {j t : Nat} {p : α} {g : SLHeap α}
    (hp : (L.getD j []).get? t = some p) :
    hfree (match (elemNode L j (t + 1) p).prevLayer with
           | none => rowStage L j (t + 1) g
           | some up => hsever (rowStage L j (t + 1) g) up) (Nat.pair j (t + 1))
      = rowStage L j t g := by
  have hlen : t < (L.getD j []).length := by
    by_contra hge
    rw [List.get?_eq_none.mpr (by omega)] at hp
    exact Option.noConfusion hp
  have hSpeel := rowSuffix_peel hlen
  have hUpeel := upTargets_peel hp
  by_cases hmem : p ∈ L.getD (j + 1) []
  · have harm : (match (elemNode L j (t + 1) p).prevLayer with
                 | none => rowStage L j (t + 1) g
                 | some up => hsever (rowStage L j (t + 1) g) up)
        = hsever (rowStage L j (t + 1) g)
            (Nat.pair (j + 1) ((L.getD (j + 1) []).indexOf p + 1)) := by
      rw [elemNode_prevLayer, if_pos hmem]
    rw [harm]
    funext k
    have hSiff : k ∈ rowSuffix L j t ↔
        (k ∈ rowSuffix L j (t + 1) ∨ k = Nat.pair j (t + 1)) := by
      rw [hSpeel]
      simp
    have hUiff : k ∈ upTargets L j t ↔
        (k = Nat.pair (j + 1) ((L.getD (j + 1) []).indexOf p + 1) ∨
          k ∈ upTargets L j (t + 1)) := by
      rw [hUpeel, if_pos hmem]
      simp
    simp only [hfree, hsever]
    by_cases h1 : k = Nat.pair j (t + 1)
    · rw [if_pos h1, rowStage_mem_eq, if_pos (hSiff.mpr (Or.inr h1))]
    · rw [if_neg h1]
      have hnS : (k ∈ rowSuffix L j t) ↔ k ∈ rowSuffix L j (t + 1) := by
        rw [hSiff]
        exact or_iff_left h1
      by_cases h2 : k = Nat.pair (j + 1) ((L.getD (j + 1) []).indexOf p + 1)
      · have hkS1 : k ∉ rowSuffix L j (t + 1) := by
          intro hk
          have h3 := rowSuffix_level hk
          rw [h2, Nat.unpair_pair] at h3
          omega
        rw [if_pos h2, rowStage_mem_eq, rowStage_mem_eq,
          if_neg hkS1, if_neg (fun hk => hkS1 (hnS.mp hk)),
          if_pos (hUiff.mpr (Or.inl h2))]
        by_cases h4 : k ∈ upTargets L j (t + 1)
        · rw [if_pos h4, map_severNd_idem]
        · rw [if_neg h4]
      · rw [if_neg h2, rowStage_mem_eq, rowStage_mem_eq]
        have hnU : (k ∈ upTargets L j t) ↔ k ∈ upTargets L j (t + 1) := by
          rw [hUiff]
          exact or_iff_right h2
        by_cases h3 : k ∈ rowSuffix L j (t + 1)
        · rw [if_pos h3, if_pos (hnS.mpr h3)]
        · rw [if_neg h3, if_neg (fun hk => h3 (hnS.mp hk))]
          by_cases h4 : k ∈ upTargets L j (t + 1)
          · rw [if_pos h4, if_pos (hnU.mpr h4)]
          · rw [if_neg h4, if_neg (fun hk => h4 (hnU.mp hk))]
  · have harm : (match (elemNode L j (t + 1) p).prevLayer with
                 | none => rowStage L j (t + 1) g
                 | some up => hsever (rowStage L j (t + 1) g) up)
        = rowStage L j (t + 1) g := by
      rw [elemNode_prevLayer, if_neg hmem]
    rw [harm]
    funext k
    have hSiff : k ∈ rowSuffix L j t ↔
        (k ∈ rowSuffix L j (t + 1) ∨ k = Nat.pair j (t + 1)) := by
      rw [hSpeel]
      simp
    have hUiff : k ∈ upTargets L j t ↔ k ∈ upTargets L j (t + 1) := by
      rw [hUpeel, if_neg hmem]
      simp
    simp only [hfree]
    by_cases h1 : k = Nat.pair j (t + 1)
    · rw [if_pos h1, rowStage_mem_eq, if_pos (hSiff.mpr (Or.inr h1))]
    · rw [if_neg h1, rowStage_mem_eq, rowStage_mem_eq]
      have hnS : (k ∈ rowSuffix L j t) ↔ k ∈ rowSuffix L j (t + 1) := by
        rw [hSiff]
        exact or_iff_left h1
      by_cases h3 : k ∈ rowSuffix L j (t + 1)
      · rw [if_pos h3, if_pos (hnS.mpr h3)]
      · rw [if_neg h3, if_neg (fun hk => h3 (hnS.mp hk))]
        by_cases h4 : k ∈ upTargets L j (t + 1)
        · rw [if_pos h4, if_pos (hUiff.mpr h4)]
        · rw [if_neg h4, if_neg (fun hk => h4 (hUiff.mp hk))]

theorem rowSuffix_len (L : List (List α)) (j : Nat) :
    rowSuffix L j (L.getD j []).length = [] := by
  rw [rowSuffix]
  simp

theorem row_lemma {L : List (List α)} {j : Nat} {g : SLHeap α}
    (hg : ∀ i p, (L.getD j []).get? i = some p →
      g (Nat.pair j (i + 1)) = some (severNd (elemNode L j (i + 1) p))) :
    ∀ n t fuel, t + n = (L.getD j []).length → t < (L.getD j []).length →
      n ≤ fuel →
      _delete_skip_list fuel g (some (Nat.pair j (t + 1))) =
        (rowStage L j t g, rowSuffix L j t) := by
  intro n
  induction n with
  | zero =>
    intro t fuel h1 h2 _
    omega
  | succ m ih =>
    intro t fuel h1 h2 hfuel
    obtain ⟨f, rfl⟩ : ∃ f, fuel = f + 1 := ⟨fuel - 1, by omega⟩
    have hpx : ∃ p, (L.getD j []).get? t = some p := by
      rw [List.get?_eq_get h2]
      exact ⟨_, rfl⟩
    obtain ⟨p, hp⟩ := hpx
    have hid := hg t p hp
    rw [dsl_step hid]
    simp only [severNd_nextLayer, severNd_nextNode, dsl_none, hid]
    have hR : _delete_skip_list f g ((elemNode L j (t + 1) p).nextNode) =
        (rowStage L j (t + 1) g, rowSuffix L j (t + 1)) := by
      by_cases hlt : t + 1 < (L.getD j []).length
      · rw [elemNode_nextNode, if_pos hlt]
        exact ih (t + 1) f (by omega) hlt (by omega)
      · have htl : t + 1 = (L.getD j []).length := by omega
        rw [elemNode_nextNode, if_neg (by omega), dsl_none, htl, rowStage_len,
          rowSuffix_len]
    rw [hR]
    have hRid : rowStage L j (t + 1) g (Nat.pair j (t + 1)) =
        some (severNd (elemNode L j (t + 1) p)) := by
      rw [rowStage_at (by rw [Nat.unpair_pair]) (by rw [Nat.unpair_pair]; omega), hid]
    simp only [hRid, severNd_prevLayer]
    rw [rowStage_step hp, List.nil_append, ← rowSuffix_peel h2]

theorem eq_pair_iff {id x y : Nat} :
    id = Nat.pair x y ↔ (Nat.unpair id).1 = x ∧ (Nat.unpair id).2 = y := by
  constructor
  · rintro rfl
    rw [Nat.unpair_pair]
    exact ⟨rfl, rfl⟩
  · rintro ⟨h1, h2⟩
    conv_lhs => rw [← Nat.pair_unpair id]
    rw [h1, h2]

theorem nodeAt_none_high {L : List (List α)} {j i : Nat} (hi : i ≠ 0)
    (hnone : (L.getD j []).get? (i - 1) = none) : nodeAt L j i = none := by
  rw [nodeAt]
  by_cases hj : j < L.length
  · rw [if_pos hj, if_neg hi, hnone]
  · rw [if_neg hj]

theorem nodeAt_none_big {L : List (List α)} {j : Nat} (hj : ¬j < L.length) (i : Nat) :
    nodeAt L j i = none := by
  rw [nodeAt, if_neg hj]

theorem getD_mem {L : List (List α)} {j : Nat} (h : j < L.length) : L.getD j [] ∈ L := by
  rw [List.getD_eq_get?, List.get?_eq_get h, Option.getD_some]
  exact List.get_mem L j h

theorem indexOf_eq_of_get? {l : List α} (hnd : l.Nodup) {i : Nat} {q : α}
    (hq : l.get? i = some q) : l.indexOf q = i := by
  obtain ⟨hleni, hget⟩ := List.get?_eq_some.mp hq
  have hmem : q ∈ l := List.get?_mem hq
  have hidx : l.indexOf q < l.length := List.indexOf_lt_length.mpr hmem
  have hgi : l.get ⟨l.indexOf q, hidx⟩ = l.get ⟨i, hleni⟩ := by
    rw [List.indexOf_get hidx, hget]
  have h5 := (List.Nodup.get_inj_iff hnd).mp hgi
  exact congrArg Fin.val h5

theorem up_member {L : List (List α)} {k : Nat} (hnd : ∀ l ∈ L, l.Nodup)
    (hc : List.Chain' (fun low up => List.Sublist up low) L) {i : Nat} {q : α}
    (hq : (L.getD (k + 1) []).get? i = some q) (hk1 : k + 1 < L.length) :
    Nat.pair (k + 1) (i + 1) ∈ upTargets L k 0 := by
  apply mem_upTargets.mpr
  have hmemq : q ∈ L.getD (k + 1) [] := List.get?_mem hq
  refine ⟨q, ?_, hmemq, ?_⟩
  · rw [List.drop_zero]
    exact (chain'_getD hc k hk1).subset hmemq
  · rw [indexOf_eq_of_get? (hnd _ (getD_mem hk1)) hq]

theorem stage_step {L : List (List α)} {k : Nat} (hk : k < L.length)
    (hnd : ∀ l ∈ L, l.Nodup)
    (hc : List.Chain' (fun low up => List.Sublist up low) L) :
    hfree (match (headerNode L k).prevLayer with
           | none => rowStage L k 0 (stageH L k)
           | some up => hsever (rowStage L k 0 (stageH L k)) up) (Nat.pair k 0)
      = stageH L (k + 1) := by
  have hrowmem : ∀ {id : Nat}, ¬(Nat.unpair id).1 = k → id ∉ rowSuffix L k 0 := by
    intro id hne hmem
    exact hne (rowSuffix_level hmem).1
  have hupmem : ∀ {id : Nat}, ¬(Nat.unpair id).1 = k + 1 → id ∉ upTargets L k 0 := by
    intro id hne hmem
    exact hne (upTargets_level hmem)
  have hcore : ∀ id : Nat, ¬id = Nat.pair k 0 → ¬id = Nat.pair (k + 1) 0 →
      rowStage L k 0 (stageH L k) id = stageH L (k + 1) id := by
    intro id h1 h2
    by_cases hjlt : (Nat.unpair id).1 < k
    · rw [rowStage_mem_eq, if_neg (hrowmem (by omega)), if_neg (hupmem (by omega)),
        stageH_at_lt hjlt, stageH_at_lt (by omega)]
    by_cases hjeq : (Nat.unpair id).1 = k
    · -- a node of level k other than the header: freed (or was unallocated)
      have hi0 : (Nat.unpair id).2 ≠ 0 := by
        intro h0
        exact h1 (eq_pair_iff.mpr ⟨hjeq, h0⟩)
      rw [stageH_at_lt (by omega)]
      by_cases hina : (Nat.unpair id).2 - 1 < (L.getD k []).length
      · have hmem : id ∈ rowSuffix L k 0 := by
          apply mem_rowSuffix.mpr
          refine ⟨(Nat.unpair id).2 - 1, by omega, hina, ?_⟩
          rw [eq_pair_iff]
          exact ⟨hjeq, by omega⟩
        rw [rowStage_mem_eq, if_pos hmem]
      · have hnone : heapOf L id = none := by
          rw [heapOf, hjeq]
          exact nodeAt_none_high hi0 (List.get?_eq_none.mpr (by omega))
        rw [rowStage_mem_eq, stageH_at_eq hjeq, hnone]
        by_cases hS : id ∈ rowSuffix L k 0
        · rw [if_pos hS]
        · rw [if_neg hS]
          by_cases hU : id ∈ upTargets L k 0
          · rw [if_pos hU]
            rfl
          · rw [if_neg hU]
            rfl
    by_cases hjeq1 : (Nat.unpair id).1 = k + 1
    · -- a node of level k+1 other than its header: its down link is severed
      have hi0 : (Nat.unpair id).2 ≠ 0 := by
        intro h0
        exact h2 (eq_pair_iff.mpr ⟨hjeq1, h0⟩)
      rw [stageH_at_eq hjeq1, rowStage_mem_eq, if_neg (hrowmem (by omega)),
        stageH_at_gt (by omega)]
      cases hhp : heapOf L id with
      | none =>
        by_cases hU : id ∈ upTargets L k 0
        · rw [if_pos hU]
        · rw [if_neg hU]
          rfl
      | some nd =>
        have hnode := hhp
        rw [heapOf] at hnode
        obtain ⟨hjlen, hcase⟩ := nodeAt_eq_some hnode
        rcases hcase with ⟨hii, _⟩ | ⟨q, hii, hq, _⟩
        · exact absurd hii hi0
        · have hk1 : k + 1 < L.length := by omega
          have hmemU : id ∈ upTargets L k 0 := by
            have h3 := up_member hnd hc (by rw [← hjeq1]; exact hq) hk1
            rw [show (Nat.unpair id).2 - 1 + 1 = (Nat.unpair id).2 from by omega] at h3
            rw [show Nat.pair (k + 1) (Nat.unpair id).2 = id from by
              conv_rhs => rw [← Nat.pair_unpair id]
              rw [hjeq1]] at h3
            exact h3
          rw [if_pos hmemU]
    · -- a node strictly above level k+1: untouched
      rw [rowStage_mem_eq, if_neg (hrowmem (by omega)), if_neg (hupmem (by omega)),
        stageH_at_gt (by omega), stageH_at_gt (by omega)]
  by_cases hk1 : k + 1 < L.length
  · have harm : (match (headerNode L k).prevLayer with
        | none => rowStage L k 0 (stageH L k)
        | some up => hsever (rowStage L k 0 (stageH L k)) up)
        = hsever (rowStage L k 0 (stageH L k)) (Nat.pair (k + 1) 0) := by
      rw [headerNode_prevLayer, if_pos hk1]
    rw [harm]
    funext id
    simp only [hfree, hsever]
    by_cases h1 : id = Nat.pair k 0
    · rw [if_pos h1]
      rw [show stageH L (k + 1) id = none from
        stageH_at_lt (by rw [h1, Nat.unpair_pair]; omega)]
    · rw [if_neg h1]
      by_cases h2 : id = Nat.pair (k + 1) 0
      · have hup : (Nat.unpair id).1 = k + 1 ∧ (Nat.unpair id).2 = 0 := eq_pair_iff.mp h2
        rw [if_pos h2, rowStage_mem_eq, if_neg (hrowmem (by omega)), if_neg ?hU,
          stageH_at_gt (by omega), stageH_at_eq hup.1]
        case hU =>
          intro hmem
          obtain ⟨p, _, _, hid⟩ := mem_upTargets.mp hmem
          rw [hid, Nat.unpair_pair] at hup
          omega
      · rw [if_neg h2]
        exact hcore id h1 h2
  · have harm : (match (headerNode L k).prevLayer with
        | none => rowStage L k 0 (stageH L k)
        | some up => hsever (rowStage L k 0 (stageH L k)) up)
        = rowStage L k 0 (stageH L k) := by
      rw [headerNode_prevLayer, if_neg hk1]
    rw [harm]
    funext id
    simp only [hfree]
    by_cases h1 : id = Nat.pair k 0
    · rw [if_pos h1]
      rw [show stageH L (k + 1) id = none from
        stageH_at_lt (by rw [h1, Nat.unpair_pair]; omega)]
    · rw [if_neg h1]
      by_cases h2 : id = Nat.pair (k + 1) 0
      · have hup : (Nat.unpair id).1 = k + 1 ∧ (Nat.unpair id).2 = 0 := eq_pair_iff.mp h2
        have hnone : heapOf L id = none := by
          rw [heapOf]
          exact nodeAt_none_big (by omega) _
        have hU2 : id ∉ upTargets L k 0 := by
          intro hmem
          obtain ⟨p, _, _, hid⟩ := mem_upTargets.mp hmem
          rw [hid, Nat.unpair_pair] at hup
          omega
        rw [rowStage_mem_eq, if_neg (hrowmem (by omega)), if_neg hU2,
          stageH_at_gt (by omega), stageH_at_eq hup.1, hnone]
        rfl
      · exact hcore id h1 h2

theorem blockIds_eq (L : List (List α)) (j : Nat) :
    blockIds L j = rowSuffix L j 0 ++ [Nat.pair j 0] := by
  rw [blockIds, rowSuffix, Nat.sub_zero]
  congr 2
  apply List.map_congr_left
  intro i hi
  rw [show 0 + i + 1 = i + 1 from by omega]

theorem level_lemma {L : List (List α)} (hnd : ∀ l ∈ L, l.Nodup)
    (hc : List.Chain' (fun low up => List.Sublist up low) L) :
    ∀ k, k < L.length → ∀ fuel, fuelFor L k ≤ fuel →
      _delete_skip_list fuel (heapOf L) (some (Nat.pair k 0)) =
        (stageH L (k + 1), blocksUpTo L k) := by
  have tail : ∀ (K : Nat), K < L.length → ∀ f : Nat, (L.getD K []).length + 1 ≤ f →
      ∀ tr : List Nat,
      (let r2 := match (stageH L K : SLHeap α) (Nat.pair K 0) with
                 | none => ((stageH L K : SLHeap α), tr)
                 | some nd1 =>
                     ((_delete_skip_list f (stageH L K) nd1.nextNode).1,
                      tr ++ (_delete_skip_list f (stageH L K) nd1.nextNode).2)
       let h2 := match r2.1 (Nat.pair K 0) with
                 | none => r2.1
                 | some nd2 => match nd2.prevLayer with
                               | none => r2.1
                               | some up => hsever r2.1 up
       (hfree h2 (Nat.pair K 0), r2.2 ++ [Nat.pair K 0]))
      = (stageH L (K + 1), tr ++ blockIds L K) := by
    intro K hk f hf tr
    have hhd : (stageH L K : SLHeap α) (Nat.pair K 0) =
        some (severNd (headerNode L K)) := stageH_header hk
    simp only [hhd, severNd_nextNode]
    have hrow : _delete_skip_list f (stageH L K) ((headerNode L K).nextNode) =
        (rowStage L K 0 (stageH L K), rowSuffix L K 0) := by
      by_cases hemp : L.getD K [] = []
      · have h0 : (L.getD K []).length = 0 := by rw [hemp]; rfl
        have hrs := rowStage_len L K (stageH L K : SLHeap α)
        rw [h0] at hrs
        have hsf := rowSuffix_len L K
        rw [h0] at hsf
        have hnn : (headerNode L K).nextNode = none := by
          rw [headerNode_nextNode, if_pos hemp]
        rw [hnn, dsl_none, hrs, hsf]
      · have hnn : (headerNode L K).nextNode = some (Nat.pair K (0 + 1)) := by
          rw [headerNode_nextNode, if_neg hemp]
        rw [hnn]
        have hlen0 : 0 < (L.getD K []).length := List.length_pos.mpr hemp
        exact row_lemma (fun i p hp => stageH_elem hk hp) (L.getD K []).length 0 f
          (by omega) hlen0 (by omega)
    rw [hrow]
    have hRid : rowStage L K 0 (stageH L K : SLHeap α) (Nat.pair K 0) =
        some (severNd (headerNode L K)) := by
      rw [rowStage_at (by rw [Nat.unpair_pair]) (by rw [Nat.unpair_pair]; omega), hhd]
    simp only [hRid, severNd_prevLayer]
    rw [stage_step hk hnd hc, blockIds_eq, ← List.append_assoc]
  intro k
  induction k with
  | zero =>
    intro hk fuel hfuel
    have hff : fuelFor L 0 = (L.getD 0 []).length + 2 := rfl
    obtain ⟨f, rfl⟩ : ∃ f, fuel = f + 1 := ⟨fuel - 1, by omega⟩
    have hid : heapOf L (Nat.pair 0 0) = some (headerNode L 0) := by
      rw [heapOf, Nat.unpair_pair]
      exact nodeAt_header hk
    rw [dsl_step hid]
    have hnl : (headerNode L 0).nextLayer = none := by
      rw [headerNode_nextLayer]
      rfl
    simp only [hnl, dsl_none]
    rw [← stageH_zero L]
    have htail := tail 0 hk f (by omega) []
    simp only at htail
    rw [htail]
    rw [blocksUpTo, List.nil_append]
  | succ k ih =>
    intro hk fuel hfuel
    have hff : fuelFor L (k + 1) = fuelFor L k + (L.getD (k + 1) []).length + 2 := rfl
    obtain ⟨f, rfl⟩ : ∃ f, fuel = f + 1 := ⟨fuel - 1, by omega⟩
    have hid : heapOf L (Nat.pair (k + 1) 0) = some (headerNode L (k + 1)) := by
      rw [heapOf, Nat.unpair_pair]
      exact nodeAt_header hk
    rw [dsl_step hid]
    have hnl : (headerNode L (k + 1)).nextLayer = some (Nat.pair k 0) := by
      rw [headerNode_nextLayer]
      rfl
    simp only [hnl]
    rw [ih (by omega) f (by omega)]
    have htail := tail (k + 1) hk f (by omega) (blocksUpTo L k)
    simp only at htail
    rw [htail]
    rw [show blocksUpTo L (k + 1) = blocksUpTo L k ++ blockIds L (k + 1) from rfl]

theorem mem_blockIds {L : List (List α)} {j id : Nat} :
    id ∈ blockIds L j ↔
      (Nat.unpair id).1 = j ∧ (Nat.unpair id).2 ≤ (L.getD j []).length := by
  rw [blockIds_eq, List.mem_append, mem_rowSuffix, List.mem_singleton]
  constructor
  · rintro (⟨i, h0, h1, rfl⟩ | rfl) <;> rw [Nat.unpair_pair]
    · exact ⟨rfl, by omega⟩
    · exact ⟨rfl, by omega⟩
  · rintro ⟨h1, h2⟩
    by_cases hz : (Nat.unpair id).2 = 0
    · exact Or.inr (eq_pair_iff.mpr ⟨h1, hz⟩)
    · refine Or.inl ⟨(Nat.unpair id).2 - 1, by omega, by omega, ?_⟩
      rw [eq_pair_iff]
      exact ⟨h1, by omega⟩

theorem mem_blocksUpTo {L : List (List α)} {id : Nat} : ∀ {k : Nat},
    id ∈ blocksUpTo L k ↔
      (Nat.unpair id).1 ≤ k ∧
        (Nat.unpair id).2 ≤ (L.getD (Nat.unpair id).1 []).length := by
  intro k
  induction k with
  | zero =>
    rw [blocksUpTo, mem_blockIds]
    constructor
    · rintro ⟨h1, h2⟩
      rw [h1]
      exact ⟨le_refl 0, h2⟩
    · rintro ⟨h1, h2⟩
      have h0 : (Nat.unpair id).1 = 0 := by omega
      rw [h0] at h2
      exact ⟨h0, h2⟩
  | succ k ih =>
    rw [show blocksUpTo L (k + 1) = blocksUpTo L k ++ blockIds L (k + 1) from rfl,
      List.mem_append, ih, mem_blockIds]
    constructor
    · rintro (⟨h1, h2⟩ | ⟨h1, h2⟩)
      · exact ⟨by omega, h2⟩
      · rw [h1]
        exact ⟨le_refl _, h2⟩
    · rintro ⟨h1, h2⟩
      by_cases hk : (Nat.unpair id).1 ≤ k
      · exact Or.inl ⟨hk, h2⟩
      · have hk1 : (Nat.unpair id).1 = k + 1 := by omega
        rw [hk1] at h2
        exact Or.inr ⟨hk1, h2⟩

theorem blockIds_nodup (L : List (List α)) (j : Nat) : (blockIds L j).Nodup := by
  rw [blockIds_eq]
  rw [List.nodup_append]
  refine ⟨?_, List.nodup_singleton _, ?_⟩
  · rw [rowSuffix, List.nodup_reverse]
    refine (List.nodup_range _).map ?_
    intro a b hab
    have := (Nat.pair_eq_pair.mp hab).2
    omega
  · intro x hx hx2
    rw [List.mem_singleton] at hx2
    have h1 := rowSuffix_level hx
    rw [hx2, Nat.unpair_pair] at h1
    omega

theorem blocksUpTo_nodup (L : List (List α)) : ∀ k : Nat, (blocksUpTo L k).Nodup := by
  intro k
  induction k with
  | zero => exact blockIds_nodup L 0
  | succ k ih =>
    rw [show blocksUpTo L (k + 1) = blocksUpTo L k ++ blockIds L (k + 1) from rfl,
      List.nodup_append]
    refine ⟨ih, blockIds_nodup L (k + 1), ?_⟩
    intro x hx hx2
    have h1 := (mem_blocksUpTo.mp hx).1
    have h2 := (mem_blockIds.mp hx2).1
    omega

theorem heapOf_isSome {L : List (List α)} {id : Nat} :
    (heapOf L id).isSome = true ↔
      ((Nat.unpair id).1 < L.length ∧
        (Nat.unpair id).2 ≤ (L.getD (Nat.unpair id).1 []).length) := by
  rw [heapOf]
  constructor
  · intro h
    obtain ⟨nd, hnd⟩ := Option.isSome_iff_exists.mp h
    obtain ⟨hj, hcase⟩ := nodeAt_eq_some hnd
    refine ⟨hj, ?_⟩
    rcases hcase with ⟨hi, _⟩ | ⟨p, hi, hp, _⟩
    · omega
    · obtain ⟨hlen, _⟩ := List.get?_eq_some.mp hp
      omega
  · rintro ⟨h1, h2⟩
    by_cases hz : (Nat.unpair id).2 = 0
    · rw [hz, nodeAt_header h1]
      rfl
    · have hlt : (Nat.unpair id).2 - 1 < (L.getD (Nat.unpair id).1 []).length := by omega
      have hget : ∃ p, (L.getD (Nat.unpair id).1 []).get? ((Nat.unpair id).2 - 1) = some p := by
        rw [List.get?_eq_get hlt]
        exact ⟨_, rfl⟩
      obtain ⟨p, hp⟩ := hget
      have := nodeAt_elem h1 hp
      rw [show (Nat.unpair id).2 - 1 + 1 = (Nat.unpair id).2 from by omega] at this
      rw [this]
      rfl

theorem reach_isSome {L : List (List α)}
    (hc : List.Chain' (fun low up => List.Sublist up low) L) (hne : L ≠ [])
    {id : Nat} (h : ReachN (heapOf L) (Nat.pair (L.length - 1) 0) id) :
    (heapOf L id).isSome = true := by
  induction h with
  | refl =>
    apply heapOf_isSome.mpr
    simp only [Nat.unpair_pair]
    have hpos : 0 < L.length := List.length_pos.mpr hne
    exact ⟨by omega, by omega⟩
  | step hr hnd hlink ih =>
    rename_i ida idb nd
    have hnd2 := hnd
    rw [heapOf] at hnd2
    obtain ⟨hj, hcase⟩ := nodeAt_eq_some hnd2
    rcases hcase with ⟨hi, rfl⟩ | ⟨p, hi, hp, rfl⟩
    · rcases hlink with hl | hl | hl | hl
      · rw [headerNode_nextNode] at hl
        by_cases hemp : L.getD (Nat.unpair ida).1 [] = []
        · rw [if_pos hemp] at hl
          exact absurd hl (by simp)
        · rw [if_neg hemp] at hl
          rw [← Option.some_inj.mp hl]
          apply heapOf_isSome.mpr
          simp only [Nat.unpair_pair]
          have := List.length_pos.mpr hemp
          exact ⟨hj, by omega⟩
      · rw [headerNode_nextLayer] at hl
        by_cases h0 : (Nat.unpair ida).1 = 0
        · rw [if_pos h0] at hl
          exact absurd hl (by simp)
        · rw [if_neg h0] at hl
          rw [← Option.some_inj.mp hl]
          apply heapOf_isSome.mpr
          simp only [Nat.unpair_pair]
          exact ⟨by omega, by omega⟩
      · exact absurd hl (by simp [headerNode])
      · rw [headerNode_prevLayer] at hl
        by_cases hup : (Nat.unpair ida).1 + 1 < L.length
        · rw [if_pos hup] at hl
          rw [← Option.some_inj.mp hl]
          apply heapOf_isSome.mpr
          simp only [Nat.unpair_pair]
          exact ⟨hup, by omega⟩
        · rw [if_neg hup] at hl
          exact absurd hl (by simp)
    · have hilen : (Nat.unpair ida).2 - 1 < (L.getD (Nat.unpair ida).1 []).length :=
        (List.get?_eq_some.mp hp).1
      rcases hlink with hl | hl | hl | hl
      · rw [elemNode_nextNode] at hl
        by_cases hlt : (Nat.unpair ida).2 < (L.getD (Nat.unpair ida).1 []).length
        · rw [if_pos hlt] at hl
          rw [← Option.some_inj.mp hl]
          apply heapOf_isSome.mpr
          simp only [Nat.unpair_pair]
          exact ⟨hj, by omega⟩
        · rw [if_neg hlt] at hl
          exact absurd hl (by simp)
      · rw [show (elemNode L (Nat.unpair ida).1 (Nat.unpair ida).2 p).nextLayer =
            (if (Nat.unpair ida).1 = 0 then none
             else some (Nat.pair ((Nat.unpair ida).1 - 1)
               ((L.getD ((Nat.unpair ida).1 - 1) []).indexOf p + 1))) from rfl] at hl
        by_cases h0 : (Nat.unpair ida).1 = 0
        · rw [if_pos h0] at hl
          exact absurd hl (by simp)
        · rw [if_neg h0] at hl
          rw [← Option.some_inj.mp hl]
          apply heapOf_isSome.mpr
          simp only [Nat.unpair_pair]
          have hmem : p ∈ L.getD ((Nat.unpair ida).1 - 1) [] := by
            have hsub := chain'_getD hc ((Nat.unpair ida).1 - 1) (by omega)
            rw [show (Nat.unpair ida).1 - 1 + 1 = (Nat.unpair ida).1 from by omega] at hsub
            exact hsub.subset (List.get?_mem hp)
          have := List.indexOf_lt_length.mpr hmem
          exact ⟨by omega, by omega⟩
      · rw [show (elemNode L (Nat.unpair ida).1 (Nat.unpair ida).2 p).prevNode =
            some (Nat.pair (Nat.unpair ida).1 ((Nat.unpair ida).2 - 1)) from rfl] at hl
        rw [← Option.some_inj.mp hl]
        apply heapOf_isSome.mpr
        simp only [Nat.unpair_pair]
        exact ⟨hj, by omega⟩
      · rw [elemNode_prevLayer] at hl
        by_cases hmem : p ∈ L.getD ((Nat.unpair ida).1 + 1) []
        · rw [if_pos hmem] at hl
          rw [← Option.some_inj.mp hl]
          apply heapOf_isSome.mpr
          simp only [Nat.unpair_pair]
          have hup : (Nat.unpair ida).1 + 1 < L.length := by
            by_contra hge
            rw [List.getD_eq_get?, List.get?_eq_none.mpr (by omega)] at hmem
            exact List.not_mem_nil p hmem
          have := List.indexOf_lt_length.mpr hmem
          exact ⟨hup, by omega⟩
        · rw [if_neg hmem] at hl
          exact absurd hl (by simp)

theorem reach_header_all {L : List (List α)} (hne : L ≠ []) :
    ∀ d, d < L.length →
      ReachN (heapOf L) (Nat.pair (L.length - 1) 0) (Nat.pair (L.length - 1 - d) 0) := by
  have hpos : 0 < L.length := List.length_pos.mpr hne
  intro d
  induction d with
  | zero => intro _; exact ReachN.refl
  | succ d ih =>
    intro hd
    have hr := ih (by omega)
    have hj : L.length - 1 - d ≠ 0 := by omega
    have hhd : heapOf L (Nat.pair (L.length - 1 - d) 0) =
        some (headerNode L (L.length - 1 - d)) := by
      rw [heapOf, Nat.unpair_pair]
      exact nodeAt_header (by omega)
    have hlink : (headerNode L (L.length - 1 - d)).nextLayer =
        some (Nat.pair (L.length - 1 - (d + 1)) 0) := by
      rw [headerNode_nextLayer, if_neg hj]
      rw [show L.length - 1 - d - 1 = L.length - 1 - (d + 1) from by omega]
    exact ReachN.step hr hhd (Or.inr (Or.inl hlink))

theorem reach_elem_all {L : List (List α)} (hne : L ≠ []) {j : Nat} (hj : j < L.length) :
    ∀ i, i ≤ (L.getD j []).length →
      ReachN (heapOf L) (Nat.pair (L.length - 1) 0) (Nat.pair j i) := by
  have hpos : 0 < L.length := List.length_pos.mpr hne
  have hhead : ReachN (heapOf L) (Nat.pair (L.length - 1) 0) (Nat.pair j 0) := by
    have := reach_header_all hne (L.length - 1 - j) (by omega)
    rw [show L.length - 1 - (L.length - 1 - j) = j from by omega] at this
    exact this
  intro i
  induction i with
  | zero => intro _; exact hhead
  | succ i ih =>
    intro hi
    have hr := ih (by omega)
    cases i with
    | zero =>
      have hemp : L.getD j [] ≠ [] := by
        intro h
        rw [h] at hi
        simp at hi
      have hhd : heapOf L (Nat.pair j 0) = some (headerNode L j) := by
        rw [heapOf, Nat.unpair_pair]
        exact nodeAt_header hj
      have hlink : (headerNode L j).nextNode = some (Nat.pair j 1) := by
        rw [headerNode_nextNode, if_neg hemp]
      exact ReachN.step hr hhd (Or.inl hlink)
    | succ m =>
      have hget : ∃ p, (L.getD j []).get? m = some p := by
        rw [List.get?_eq_get (by omega)]
        exact ⟨_, rfl⟩
      obtain ⟨p, hp⟩ := hget
      have hhd : heapOf L (Nat.pair j (m + 1)) = some (elemNode L j (m + 1) p) := by
        rw [heapOf, Nat.unpair_pair]
        exact nodeAt_elem hj hp
      have hlink : (elemNode L j (m + 1) p).nextNode = some (Nat.pair j (m + 1 + 1)) := by
        rw [elemNode_nextNode, if_pos (by omega)]
      exact ReachN.step hr hhd (Or.inl hlink)

/-- Claim C9: on the node graph of a well-formed level structure,
`skip_list_destroy` (that is, `_delete_skip_list` started from the topmost
header) frees exactly the nodes reachable from the topmost header, each
exactly once: the freed-address sequence has no duplicates and contains
precisely the reachable addresses. -/
theorem claim_C9 {L : List (List α)} (hne : L ≠ []) (hnd : ∀ l ∈ L, l.Nodup)
    (hc : List.Chain' (fun low up => List.Sublist up low) L)
    (fuel : Nat) (hfuel : fuelFor L (L.length - 1) ≤ fuel) :
    (skip_list_destroy L fuel).2.Nodup ∧
    (∀ id, ReachN (heapOf L) (Nat.pair (L.length - 1) 0) id ↔
      id ∈ (skip_list_destroy L fuel).2) := by
  have hpos : 0 < L.length := List.length_pos.mpr hne
  have hlev := level_lemma hnd hc (L.length - 1) (by omega) fuel hfuel
  have htr : (skip_list_destroy L fuel).2 = blocksUpTo L (L.length - 1) := by
    rw [skip_list_destroy, hlev]
  rw [htr]
  refine ⟨blocksUpTo_nodup L _, ?_⟩
  intro id
  rw [mem_blocksUpTo]
  constructor
  · intro h
    have hs := heapOf_isSome.mp (reach_isSome hc hne h)
    exact ⟨by omega, hs.2⟩
  · rintro ⟨h1, h2⟩
    have := reach_elem_all hne (show (Nat.unpair id).1 < L.length from by omega)
      (Nat.unpair id).2 h2
    rw [Nat.pair_unpair] at this
    exact this

/-- Witness for C9 on the two-level structure `dL`. -/
theorem claim_C9_witness :
    (dL ≠ [] ∧ (∀ l ∈ dL, l.Nodup) ∧
      List.Chain' (fun low up => List.Sublist up low) dL ∧
      fuelFor dL (dL.length - 1) ≤ 16) ∧
    ((skip_list_destroy dL 16).2.Nodup ∧
      (∀ id, ReachN (heapOf dL) (Nat.pair (dL.length - 1) 0) id ↔
        id ∈ (skip_list_destroy dL 16).2)) :=
  ⟨⟨by decide, by decide, by
      refine List.chain'_cons.mpr ⟨?_, List.chain'_singleton _⟩
      exact List.singleton_sublist.mpr (by decide), by decide⟩,
    claim_C9 (by decide) (by decide)
      (by
        refine List.chain'_cons.mpr ⟨?_, List.chain'_singleton _⟩
        exact List.singleton_sublist.mpr (by decide))
      16 (by decide)⟩

end SkipListC
